import Mathlib

/-!
Verification model of the PagePilot documentation crawler
(`src/scraper.py`, class `DocumentationScraper`).

The crawler's pure logic is shallowly embedded here:

* `pyUrlparse` / `pyUrljoin` model the parts of `urllib.parse.urlparse`
  and `urllib.parse.urljoin` that the crawler exercises (scheme and
  network-location recognition, fragment/query/params splitting, and
  relative-reference resolution), following CPython's
  `Lib/urllib/parse.py`.
* `is_valid_url` models `DocumentationScraper._is_valid_url`.
* `processChunk` / `discoverLoop` / `discover_urls` model
  `_process_chunk`, `_process_with_multiprocessing` and `discover_urls`.
  The event-loop plumbing is concurrency scaffolding only: chunks are
  driven sequentially by `loop.run_until_complete`, and within a chunk
  `asyncio.gather` preserves task order, so the pure state transformer
  below is the observable behaviour.  Network fetching plus
  BeautifulSoup link scanning is abstracted by a finite site map
  `Web := List (String × List String)` taking a URL to the list of
  `href` attributes of its anchor tags; a URL absent from the map is a
  failed fetch (`_fetch_url` returns `None` on any non-200 status or
  exception).
* `decodeUnicodeEscape`, `nonCharSub`, `cleanText` and `extractText`
  model `_clean_text` and `_extract_text` over a tree of parsed markup
  nodes (the result of BeautifulSoup parsing, which itself is an
  external library).

Python strings are modelled as `List Char` internally; machine-level
concerns do not arise (all arithmetic is over `Nat`/`Int`).
-/

namespace PagePilot

/-! ### Small list utilities (Python `set` and `sorted` analogues) -/

/-- Insert into a duplicate-free list, modelling `set.add`:
keeps insertion order, adds only if absent. -/
def listInsert (x : String) (l : List String) : List String :=
  if x ∈ l then l else l ++ [x]

/-- `s.update(t)` / `s | t` on the list-set representation. -/
def listUnion (l add : List String) : List String :=
  add.foldl (fun acc x => listInsert x acc) l

/-- Code-point comparison of strings, as Python compares `str` values. -/
def charListLe : List Char → List Char → Bool
  | [], _ => true
  | _ :: _, [] => false
  | a :: as, b :: bs =>
    if a.val < b.val then true
    else if b.val < a.val then false
    else charListLe as bs

/-- `a <= b` for Python strings. -/
def pyStrLe (a b : String) : Bool :=
  charListLe a.toList b.toList

/-- Insert into a list sorted by `pyStrLe`. -/
def insertSorted (x : String) : List String → List String
  | [] => [x]
  | y :: ys => if pyStrLe x y then x :: y :: ys else y :: insertSorted x ys

/-- `sorted(list(s))` on the list-set representation of a Python set. -/
def pySorted (l : List String) : List String :=
  l.foldr insertSorted []

/-! ### `urllib.parse` model: `urlparse`

Follows CPython `Lib/urllib/parse.py` (`urlsplit`, `urlparse`).
Only the pieces the crawler can reach are modelled; the NFKC check of
`_checknetloc` and the host-shape validation of `_check_bracketed_host`
apply to non-ASCII or bracketed hosts and are noted where they are
elided. -/

/-- Characters CPython removes anywhere in a URL before parsing
(`_UNSAFE_URL_BYTES_TO_REMOVE` = tab, carriage return, newline). -/
def isUnsafeUrlChar (c : Char) : Bool :=
  c = '\t' || c = '\r' || c = '\n'

/-- WHATWG C0-control-or-space class: code points up to U+0020.
CPython strips these from the **front** of the URL only
("Only lstrip url as some applications rely on preserving trailing
space"). -/
def isC0OrSpace (c : Char) : Bool :=
  c.val ≤ 0x20

/-- The sanitisation `urlsplit` applies before parsing. -/
def sanitizeUrl (l : List Char) : List Char :=
  (l.filter (fun c => !isUnsafeUrlChar c)).dropWhile isC0OrSpace

/-- `scheme_chars` of `urllib.parse`. -/
def isSchemeChar (c : Char) : Bool :=
  ('a' ≤ c && c ≤ 'z') || ('A' ≤ c && c ≤ 'Z') || ('0' ≤ c && c ≤ '9') ||
    c = '+' || c = '-' || c = '.'

/-- `url[0].isascii() and url[0].isalpha()`. -/
def isAsciiAlpha (c : Char) : Bool :=
  ('a' ≤ c && c ≤ 'z') || ('A' ≤ c && c ≤ 'Z')

/-- Scheme recognition of `urlsplit`: take the text before the first
`':'`; if it is a non-empty ASCII-letter-headed run of scheme
characters, it is the (lower-cased) scheme and the remainder follows
the colon; otherwise the default scheme applies and the whole input is
left to parse. -/
def schemeSplit (l : List Char) (dflt : List Char) : List Char × List Char :=
  let pre := l.takeWhile (fun c => c ≠ ':')
  match l.dropWhile (fun c => c ≠ ':') with
  | [] => (dflt, l)
  | _ :: rest =>
    match pre with
    | [] => (dflt, l)
    | p :: ps =>
      if isAsciiAlpha p && ps.all isSchemeChar then
        ((p :: ps).map Char.toLower, rest)
      else (dflt, l)

/-- A character that ends the network-location part (`_splitnetloc`
scans up to the earliest of `'/'`, `'?'`, `'#'`). -/
def isNetlocEnd (c : Char) : Bool :=
  c = '/' || c = '?' || c = '#'

/-- Network-location extraction of `urlsplit`: if the remainder starts
with `//`, the netloc runs to the first `/`, `?` or `#`; an unbalanced
square bracket in the netloc raises `ValueError("Invalid IPv6 URL")`.
(The stricter bracketed-host shape validation of newer CPython is not
modelled; no crawler input reaches it in the claims.) -/
def netlocSplit (l : List Char) : Except String (List Char × List Char) :=
  if l.take 2 = "//".toList then
    let r := l.drop 2
    let netloc := r.takeWhile (fun c => !isNetlocEnd c)
    let rest := r.dropWhile (fun c => !isNetlocEnd c)
    if ('[' ∈ netloc && ']' ∉ netloc) || (']' ∈ netloc && '[' ∉ netloc) then
      .error "Invalid IPv6 URL"
    else .ok (netloc, rest)
  else .ok ([], l)

/-- Result of `urlparse`. -/
structure ParseResult where
  scheme : List Char
  netloc : List Char
  path : List Char
  params : List Char
  query : List Char
  fragment : List Char
deriving Repr, DecidableEq

/-- `urlsplit(url, scheme, allow_fragments=True)` modulo the params
field (split off afterwards by `urlparse`). Returns scheme, netloc,
path, query, fragment. -/
def pyUrlsplit (l : List Char) (dflt : List Char) :
    Except String (List Char × List Char × List Char × List Char × List Char) :=
  let x := sanitizeUrl l
  let (scheme, rest) := schemeSplit x dflt
  match netlocSplit rest with
  | .error e => .error e
  | .ok (netloc, rest) =>
    let path0 := rest.takeWhile (fun c => c ≠ '#')
    let fragment :=
      match rest.dropWhile (fun c => c ≠ '#') with
      | [] => []
      | _ :: f => f
    let path := path0.takeWhile (fun c => c ≠ '?')
    let query :=
      match path0.dropWhile (fun c => c ≠ '?') with
      | [] => []
      | _ :: q => q
    .ok (scheme, netloc, path, query, fragment)

/-- Schemes of `uses_params` (those whose path may carry `;params`). -/
def usesParams : List (List Char) :=
  [[], "ftp".toList, "hdl".toList, "prospero".toList, "http".toList,
   "imap".toList, "https".toList, "shttp".toList, "rtsp".toList,
   "rtsps".toList, "rtspu".toList, "sip".toList, "sips".toList,
   "mms".toList, "sftp".toList, "tel".toList]

/-- `_splitparams`: when the path contains a `/`, only a `;` at or
after the last `/` starts the params; otherwise the first `;` does. -/
def splitParams (path : List Char) : List Char × List Char :=
  if '/' ∈ path then
    let revTail := (path.reverse.takeWhile (fun c => c ≠ '/')).reverse
    let front := path.take (path.length - revTail.length)
    if ';' ∈ revTail then
      (front ++ revTail.takeWhile (fun c => c ≠ ';'),
       match revTail.dropWhile (fun c => c ≠ ';') with
       | [] => []
       | _ :: p => p)
    else (path, [])
  else
    (path.takeWhile (fun c => c ≠ ';'),
     match path.dropWhile (fun c => c ≠ ';') with
     | [] => []
     | _ :: p => p)

/-- `urlparse(url, scheme=dflt, allow_fragments=True)`. -/
def pyUrlparseWith (l : List Char) (dflt : List Char) : Except String ParseResult :=
  match pyUrlsplit l dflt with
  | .error e => .error e
  | .ok (scheme, netloc, path, query, fragment) =>
    if scheme ∈ usesParams && ';' ∈ path then
      let (p, params) := splitParams path
      .ok ⟨scheme, netloc, p, params, query, fragment⟩
    else
      .ok ⟨scheme, netloc, path, [], query, fragment⟩

/-- `urlparse(url)` on a Lean `String`. -/
def pyUrlparse (s : String) : Except String ParseResult :=
  pyUrlparseWith s.toList []

/-! ### `urllib.parse` model: `urljoin` -/

/-- Schemes of `uses_relative`. -/
def usesRelative : List (List Char) :=
  [[], "ftp".toList, "http".toList, "gopher".toList, "nntp".toList,
   "imap".toList, "wais".toList, "file".toList, "https".toList,
   "shttp".toList, "mms".toList, "prospero".toList, "rtsp".toList,
   "rtspu".toList, "rtsps".toList, "sftp".toList, "svn".toList,
   "svn+ssh".toList, "ws".toList, "wss".toList]

/-- Schemes of `uses_netloc`. -/
def usesNetloc : List (List Char) :=
  [[], "ftp".toList, "http".toList, "gopher".toList, "nntp".toList,
   "telnet".toList, "imap".toList, "wais".toList, "file".toList,
   "mms".toList, "https".toList, "shttp".toList, "snews".toList,
   "prospero".toList, "rtsp".toList, "rtspu".toList, "rtsps".toList,
   "rsync".toList, "svn".toList, "svn+ssh".toList, "sftp".toList,
   "nfs".toList, "git".toList, "git+ssh".toList, "ws".toList,
   "wss".toList, "itms-services".toList]

/-- `urlunsplit((scheme, netloc, url, query, fragment))` (Python 3.11
form: a scheme of `uses_netloc` always reinstates the `//`). -/
def pyUrlunsplit (scheme netloc url query fragment : List Char) : List Char :=
  let url :=
    if netloc ≠ [] ||
        (scheme ≠ [] && scheme ∈ usesNetloc && url.take 2 ≠ "//".toList) then
      let url := if url ≠ [] && url.take 1 ≠ ['/'] then '/' :: url else url
      "//".toList ++ netloc ++ url
    else url
  let url := if scheme ≠ [] then scheme ++ ':' :: url else url
  let url := if query ≠ [] then url ++ '?' :: query else url
  if fragment ≠ [] then url ++ '#' :: fragment else url

/-- `urlunparse((scheme, netloc, url, params, query, fragment))`. -/
def pyUrlunparse (r : ParseResult) : List Char :=
  let url := if r.params ≠ [] then r.path ++ ';' :: r.params else r.path
  pyUrlunsplit r.scheme r.netloc url r.query r.fragment

/-- Worker for `splitSlash`; the fuel is an upper bound on the number
of separators and always suffices when seeded with the list length. -/
def splitSlashGo : Nat → List Char → List (List Char)
  | 0, l => [l]
  | fuel + 1, l =>
    match l.dropWhile (fun c => c ≠ '/') with
    | [] => [l]
    | _ :: rest => l.takeWhile (fun c => c ≠ '/') :: splitSlashGo fuel rest

/-- Split a path on `'/'` as Python `str.split('/')` does (keeping
empty segments). -/
def splitSlash (l : List Char) : List (List Char) :=
  splitSlashGo l.length l

/-- `'/'.join(segments)`. -/
def joinSlash : List (List Char) → List Char
  | [] => []
  | [s] => s
  | s :: rest => s ++ '/' :: joinSlash rest

/-- The `segments[1:-1] = filter(None, segments[1:-1])` step of
`urljoin`: drop empty segments except the first and the last. -/
def filterInner (segs : List (List Char)) : List (List Char) :=
  match segs with
  | [] => []
  | [s] => [s]
  | s :: rest =>
    s :: (rest.dropLast.filter (fun x => x ≠ [])) ++ [rest.getLast!]

/-- The `..`/`.` resolution loop of `urljoin` (`resolved_path`): `..`
pops (ignoring pops of an empty stack, per the `IndexError` handler),
`.` is skipped, other segments are pushed. -/
def resolveSegments (segs : List (List Char)) : List (List Char) :=
  segs.foldl
    (fun acc seg =>
      if seg = "..".toList then acc.dropLast
      else if seg = ".".toList then acc
      else acc ++ [seg])
    []

/-- `urljoin(base, url)`, following CPython `Lib/urllib/parse.py`. -/
def pyUrljoinL (base url : List Char) : Except String (List Char) :=
  if base = [] then .ok url
  else if url = [] then .ok base
  else
    match pyUrlparseWith base [] with
    | .error e => .error e
    | .ok b =>
      match pyUrlparseWith url b.scheme with
      | .error e => .error e
      | .ok u =>
        if u.scheme ≠ b.scheme || u.scheme ∉ usesRelative then .ok url
        else
          let netloc :=
            if u.scheme ∈ usesNetloc then
              if u.netloc ≠ [] then none else some b.netloc
            else some u.netloc
          match netloc with
          | none => .ok (pyUrlunparse u)
          | some netloc =>
            if u.path = [] && u.params = [] then
              let query := if u.query = [] then b.query else u.query
              .ok (pyUrlunparse
                ⟨u.scheme, netloc, b.path, b.params, query, u.fragment⟩)
            else
              let baseParts :=
                let bp := splitSlash b.path
                if bp.getLast! ≠ [] then bp.dropLast else bp
              let segments :=
                if u.path.take 1 = ['/'] then splitSlash u.path
                else filterInner (baseParts ++ splitSlash u.path)
              let resolved := resolveSegments segments
              let resolved :=
                if segments.getLast! = ".".toList ||
                   segments.getLast! = "..".toList then
                  resolved ++ [[]]
                else resolved
              let path :=
                match joinSlash resolved with
                | [] => ['/']
                | p => p
              .ok (pyUrlunparse
                ⟨u.scheme, netloc, path, u.params, u.query, u.fragment⟩)

/-- `urljoin` on Lean strings. -/
def pyUrljoin (base url : String) : Except String String :=
  (pyUrljoinL base.toList url.toList).map String.mk

/-! ### `_is_valid_url` -/

/-- The fragment/query stripping of `_is_valid_url`
(`url.split('#')[0]` then `url.split('?')[0]`). -/
def stripFragQuery (s : String) : String :=
  String.mk ((s.toList.takeWhile (fun c => c ≠ '#')).takeWhile (fun c => c ≠ '?'))

/-- `DocumentationScraper._is_valid_url(url)` with `self.base_url = base`:
empty URLs are invalid; fragments and query strings are stripped before
parsing; the URL must parse with a truthy scheme and netloc, scheme in
`{http, https}`, and netloc equal to the base URL's netloc; a
`ValueError` from parsing yields `False`. -/
def is_valid_url (base url : String) : Bool :=
  if url = "" then false
  else
    match pyUrlparse (stripFragQuery url), pyUrlparse base with
    | .ok r, .ok b =>
      decide (r.scheme ≠ []) && decide (r.netloc ≠ []) &&
        (r.scheme = "http".toList || r.scheme = "https".toList) &&
        r.netloc = b.netloc
    | _, _ => false

/-! ### Crawl model: `_process_chunk`, chunking, `discover_urls`

A site is a finite association list from page URL to the list of
`href` attributes of the anchor tags BeautifulSoup finds on that page.
A URL absent from the list is a failed fetch: `_fetch_url` maps any
non-200 response or exception to `None`, and `_process_chunk` skips
falsy content. -/

/-- A finite static site. -/
abbrev Web : Type := List (String × List String)

/-- Fetch-and-scan: the links of a page, or `none` when the fetch
fails (non-2xx, timeout, connection error) or yields falsy content. -/
def lookupWeb (web : Web) (u : String) : Option (List String) :=
  match web.find? (fun p => p.1 = u) with
  | some p => some p.2
  | none => none

/-- A Python exception escaping `discover_urls`, or exhaustion of the
step budget of the loop model (shown impossible in `discoverLoop_total`). -/
inductive PyErr where
  | valueError : String → PyErr
  | fuelOut : PyErr
deriving Repr, DecidableEq

/-- The dispatch loop of `_process_chunk`: for each URL of the chunk
not yet visited, mark it visited and create a fetch task. Returns the
updated visited set and the dispatched URLs in task order. -/
def dispatch (visited : List String) (urls : List String) :
    List String × List String :=
  urls.foldl
    (fun acc u =>
      if u ∈ acc.1 then acc else (acc.1 ++ [u], acc.2 ++ [u]))
    (visited, [])

/-- The inner `for link in soup.find_all('a')` loop of
`_process_chunk` for one page: resolve each truthy `href` against the
page URL `u` with `urljoin` and add the result to the discovered set
when `_is_valid_url` accepts it. A `ValueError` raised by `urljoin`
propagates. -/
def addLinks (base u : String) : List String → List String →
    Except PyErr (List String)
  | [], acc => .ok acc
  | href :: rest, acc =>
    if href = "" then addLinks base u rest acc
    else
      match pyUrljoin u href with
      | .error e => .error (.valueError e)
      | .ok full =>
        addLinks base u rest
          (if is_valid_url base full then listInsert full acc else acc)

/-- The link-collection loop of `_process_chunk`: iterate
`zip(urls, responses)` and run `addLinks` on each page with truthy
content. -/
def collectLinks (base : String) :
    List (String × Option (List String)) → List String →
    Except PyErr (List String)
  | [], acc => .ok acc
  | (_, none) :: rest, acc => collectLinks base rest acc
  | (u, some hrefs) :: rest, acc =>
    match addLinks base u hrefs acc with
    | .error e => .error e
    | .ok acc' => collectLinks base rest acc'

/-- `_process_chunk(urls)` with `self.base_url = base` and
`self.visited_urls = visited`: dispatch unvisited URLs, fetch them
concurrently (`asyncio.gather` keeps task order), then scan
`zip(urls, responses)` — note the zip is against the **whole** chunk,
not the dispatched sublist. Returns the new visited set and the
discovered set of the chunk. -/
def processChunk (web : Web) (base : String) (visited : List String)
    (urls : List String) : Except PyErr (List String × List String) :=
  let (v, ts) := dispatch visited urls
  let responses := ts.map (lookupWeb web)
  match collectLinks base (urls.zip responses) [] with
  | .error e => .error e
  | .ok discovered => .ok (v, discovered)

/-- Worker for `processWave`: fold the chunks, threading the visited
set and unioning the per-chunk discovered sets. -/
def processWaveGo (web : Web) (base : String) :
    List (List String) → List String → List String →
    Except PyErr (List String × List String)
  | [], visited, dAcc => .ok (visited, dAcc)
  | chunk :: rest, visited, dAcc =>
    match processChunk web base visited chunk with
    | .error e => .error e
    | .ok (v, d) => processWaveGo web base rest v (listUnion dAcc d)

/-- `_process_with_multiprocessing(url_chunks)`: the chunks are
processed sequentially (each `run_until_complete` call drives one
chunk), sharing `self.visited_urls`, and the per-chunk discovered sets
are unioned by `set().union(*tasks)`. -/
def processWave (web : Web) (base : String) (visited : List String)
    (chunks : List (List String)) : Except PyErr (List String × List String) :=
  processWaveGo web base chunks visited []

/-- Successive size-`cs` slices, the value of
`[lst[i:i+cs] for i in range(0, len(lst), cs)]` for `cs ≥ 1`;
the fuel is seeded with the list length, which always suffices. -/
def chunksGo (cs : Nat) : Nat → List String → List (List String)
  | _, [] => []
  | 0, _ => []
  | fuel + 1, l => l.take cs :: chunksGo cs fuel (l.drop cs)

/-- The chunking expression of `discover_urls`. `range(0, n, 0)`
raises `ValueError`; a negative step yields an empty range (so no
chunks at all); a positive step yields the successive slices. -/
def pyChunks (l : List String) (cs : Int) : Except PyErr (List (List String)) :=
  if cs = 0 then .error (.valueError "range() arg 3 must not be zero")
  else if cs < 0 then .ok []
  else .ok (chunksGo cs.toNat l.length l)

/-- Every URL the crawl of `web` from `base` can ever place in a
frontier: the base URL plus every successful `urljoin` of a page of the
site with one of its hrefs. Used only to size the loop's step budget. -/
def urlUniverse (web : Web) (base : String) : List String :=
  base :: web.flatMap
    (fun p => p.2.filterMap (fun h => (pyUrljoin p.1 h).toOption))

/-- The `while initial_urls:` loop of `discover_urls`. One fuel unit
is spent per iteration; `discover_urls` seeds enough fuel that
`.error .fuelOut` is unreachable (theorem `discoverLoop_total`). -/
def discoverLoop (web : Web) (base : String) (cs : Int) :
    Nat → List String → List String → List String →
    Except PyErr (List String × List String)
  | 0, _, _, _ => .error .fuelOut
  | fuel + 1, visited, discovered, frontier =>
    if frontier = [] then .ok (visited, pySorted discovered)
    else
      match pyChunks frontier cs with
      | .error e => .error e
      | .ok chunks =>
        match processWave web base visited chunks with
        | .error e => .error e
        | .ok (v, newUrls) =>
          let discovered := listUnion discovered frontier
          let frontier := newUrls.filter
            (fun u => u ∉ discovered && is_valid_url base u)
          discoverLoop web base cs fuel v discovered frontier

/-- The mutable attributes of a `DocumentationScraper` instance that
`discover_urls` reads or writes. -/
structure ScraperState where
  visited_urls : List String
  doc_urls : List String
  base_url : String
deriving Repr, DecidableEq

/-- The fixed list `TEST_URLS` lives in `test_data.py` (imported
through `tests.py`), which is not among the provided sources, so
`discover_urls` below takes it as a parameter.
Modelled from the spec: the spec never constrains its value, and no
claim depends on it — the theorems quantify over it. -/
def defaultTestUrls : List String := []

/-- `discover_urls(base_url, chunk_size, use_test_urls)` on a scraper
whose state is `st`. With `use_test_urls=True` it returns `TEST_URLS`
immediately, before any state reset; otherwise it stores the base URL,
clears the visited and result sets, and runs the wave loop from the
frontier `{base_url}`. On a Python exception the `Except.error` carries
the exception; the partially mutated instance state at the moment an
exception escapes is not modelled (no claim refers to it), so the
state component is then the entry state of the loop. -/
def discover_urls (web : Web) (st : ScraperState) (base_url : String)
    (chunk_size : Int) (use_test_urls : Bool) (TEST_URLS : List String) :
    ScraperState × Except PyErr (List String) :=
  if use_test_urls then (st, .ok TEST_URLS)
  else
    let fuel := (urlUniverse web base_url).length + 1
    match discoverLoop web base_url chunk_size fuel [] [] [base_url] with
    | .ok (v, docs) => (⟨v, docs, base_url⟩, .ok docs)
    | .error e => (⟨[], [], base_url⟩, .error e)

/-- The discovered-URL list of a plain `discover_urls(base, cs)` call. -/
def discoverResult (web : Web) (base : String) (cs : Int) :
    Except PyErr (List String) :=
  (discover_urls web ⟨[], [], ""⟩ base cs false defaultTestUrls).2

/-! ### Text extraction model: `_clean_text` and `_extract_text`

`_clean_text` runs `text.encode('utf-8').decode('unicode_escape')`,
substitutes the `non_char_pattern` regex away, normalizes (NFKD),
filters to `string.printable` and strips. The byte-level encode/decode
round trip is modelled exactly (UTF-8 encoding, then the
`unicode_escape` codec over the bytes, where a non-escape byte decodes
as its Latin-1 character). -/

/-- UTF-8 encoding of one character. -/
def utf8Bytes (c : Char) : List Nat :=
  let n := c.toNat
  if n < 0x80 then [n]
  else if n < 0x800 then [0xC0 + n / 0x40, 0x80 + n % 0x40]
  else if n < 0x10000 then
    [0xE0 + n / 0x1000, 0x80 + n / 0x40 % 0x40, 0x80 + n % 0x40]
  else
    [0xF0 + n / 0x40000, 0x80 + n / 0x1000 % 0x40,
     0x80 + n / 0x40 % 0x40, 0x80 + n % 0x40]

/-- `text.encode('utf-8')`. -/
def encodeUtf8 (l : List Char) : List Nat :=
  l.flatMap utf8Bytes

/-- ASCII hex digit, as a byte value. -/
def isHexByte (b : Nat) : Bool :=
  (48 ≤ b && b ≤ 57) || (97 ≤ b && b ≤ 102) || (65 ≤ b && b ≤ 70)

/-- Value of an ASCII hex digit byte. -/
def hexVal (b : Nat) : Nat :=
  if b ≤ 57 then b - 48 else if b ≤ 70 then b - 55 else b - 87

/-- ASCII octal digit, as a byte value. -/
def isOctByte (b : Nat) : Bool :=
  48 ≤ b && b ≤ 55

/-- Fold hex digit bytes into a number. -/
def hexFold (ds : List Nat) : Nat :=
  ds.foldl (fun acc d => 16 * acc + hexVal d) 0

/-- A Unicode scalar value from a code point, as used by the escape
decoder. Lone surrogates (which Python `str` can hold but Lean `Char`
cannot) collapse to U+0000; they are removed by the
`non_char_pattern` substitution and the `string.printable` filter in
either representation, so `cleanText` is unaffected. -/
def charOf (n : Nat) : Char :=
  Char.ofNat n

/-- The `unicode_escape` codec over bytes
(CPython `PyUnicode_DecodeUnicodeEscape`). One fuel unit per consumed
byte; seeding with the byte-list length always suffices. Errors are
`UnicodeDecodeError`s with the reason CPython reports. -/
def decodeUEGo : Nat → List Nat → Except String (List Char)
  | _, [] => .ok []
  | 0, _ :: _ => .error "decode fuel exhausted"
  | fuel + 1, b :: bs =>
    if b ≠ 92 then
      (decodeUEGo fuel bs).map (fun cs => charOf b :: cs)
    else
      match bs with
      | [] => .error "\\ at end of string"
      | e :: rest =>
        if e = 10 then decodeUEGo fuel rest
        else if e = 92 then (decodeUEGo fuel rest).map (fun cs => '\\' :: cs)
        else if e = 39 then (decodeUEGo fuel rest).map (fun cs => '\'' :: cs)
        else if e = 34 then (decodeUEGo fuel rest).map (fun cs => '"' :: cs)
        else if e = 98 then
          (decodeUEGo fuel rest).map (fun cs => charOf 8 :: cs)
        else if e = 102 then
          (decodeUEGo fuel rest).map (fun cs => charOf 12 :: cs)
        else if e = 116 then (decodeUEGo fuel rest).map (fun cs => '\t' :: cs)
        else if e = 110 then (decodeUEGo fuel rest).map (fun cs => '\n' :: cs)
        else if e = 114 then
          (decodeUEGo fuel rest).map (fun cs => charOf 13 :: cs)
        else if e = 118 then
          (decodeUEGo fuel rest).map (fun cs => charOf 11 :: cs)
        else if e = 97 then
          (decodeUEGo fuel rest).map (fun cs => charOf 7 :: cs)
        else if isOctByte e then
          let more := (rest.take 2).takeWhile isOctByte
          let v := more.foldl (fun acc d => 8 * acc + (d - 48)) (e - 48)
          (decodeUEGo fuel (rest.drop more.length)).map
            (fun cs => charOf v :: cs)
        else if e = 120 then
          let ds := (rest.take 2).takeWhile isHexByte
          if ds.length = 2 then
            (decodeUEGo fuel (rest.drop 2)).map
              (fun cs => charOf (hexFold ds) :: cs)
          else .error "truncated \\xXX escape"
        else if e = 117 then
          let ds := (rest.take 4).takeWhile isHexByte
          if ds.length = 4 then
            (decodeUEGo fuel (rest.drop 4)).map
              (fun cs => charOf (hexFold ds) :: cs)
          else .error "truncated \\uXXXX escape"
        else if e = 85 then
          let ds := (rest.take 8).takeWhile isHexByte
          if ds.length = 8 then
            if hexFold ds ≤ 0x10FFFF then
              (decodeUEGo fuel (rest.drop 8)).map
                (fun cs => charOf (hexFold ds) :: cs)
            else .error "illegal Unicode character"
          else .error "truncated \\UXXXXXXXX escape"
        else if e = 78 then
          match rest with
          | 123 :: _ =>
            .error "named Unicode escapes rely on the external unicodedata database"
          | _ => .error "malformed \\N character escape"
        else
          (decodeUEGo fuel rest).map (fun cs => '\\' :: charOf e :: cs)

/-- `text.encode('utf-8').decode('unicode_escape')`. -/
def decodeUnicodeEscape (l : List Char) : Except String (List Char) :=
  decodeUEGo (encodeUtf8 l).length (encodeUtf8 l)

/-- Python `\w` on the ASCII range (`[a-zA-Z0-9_]`); classification of
non-ASCII word characters follows the external Unicode database and is
not modelled (no claim exercises it). -/
def isWordChar (c : Char) : Bool :=
  c.isAlphanum || c = '_'

/-- Python `\s` on the ASCII range. -/
def isPySpace (c : Char) : Bool :=
  c = ' ' || c = '\t' || c = '\n' || c.val = 13 || c.val = 11 || c.val = 12

/-- A character the class `[^\w\s.,!?-]` does **not** match. -/
def isKeptChar (c : Char) : Bool :=
  isWordChar c || isPySpace c || c = '.' || c = ',' || c = '!' ||
    c = '?' || c = '-'

/-- ASCII hex digit as a character. -/
def isHexChar (c : Char) : Bool :=
  c.isDigit || ('a' ≤ c && c ≤ 'f') || ('A' ≤ c && c ≤ 'F')

/-- `non_char_pattern.sub('', text)` for the pattern
`\\u[0-9a-fA-F]{4}|\\[xuU][0-9a-fA-F]{1,6}|[^\w\s.,!?-]`: left-to-right
scan, alternatives tried in order at each position, the quantifier
`{1,6}` greedy. One fuel unit per consumed character. -/
def nonCharSubGo : Nat → List Char → List Char
  | _, [] => []
  | 0, l => l
  | fuel + 1, c :: rest =>
    if c = '\\' then
      match rest with
      | [] => nonCharSubGo fuel []
      | e :: r =>
        if e = 'u' && (r.take 4).length = 4 && (r.take 4).all isHexChar then
          nonCharSubGo fuel (r.drop 4)
        else if (e = 'x' || e = 'u' || e = 'U') &&
            ((r.take 6).takeWhile isHexChar).length ≥ 1 then
          nonCharSubGo fuel (r.drop ((r.take 6).takeWhile isHexChar).length)
        else nonCharSubGo fuel rest
    else if isKeptChar c then c :: nonCharSubGo fuel rest
    else nonCharSubGo fuel rest

/-- `non_char_pattern.sub('', text)`. -/
def nonCharSub (l : List Char) : List Char :=
  nonCharSubGo l.length l

/-- `unicodedata.normalize('NFKD', text)`: the compatibility
decomposition of the external unicodedata database; it is the identity
on ASCII text, which is all the claims exercise, and is modelled as
such. -/
def nfkdNormalize (l : List Char) : List Char :=
  l

/-- Membership in `string.printable`
(ASCII 0x20–0x7E plus `\t\n\r\x0b\x0c`). -/
def isPrintableChar (c : Char) : Bool :=
  (0x20 ≤ c.val && c.val ≤ 0x7E) || c = '\t' || c = '\n' ||
    c.val = 13 || c.val = 11 || c.val = 12

/-- `str.strip()` (the input here is already printable ASCII, where
Python's Unicode whitespace coincides with `isPySpace`). -/
def pyStrip (l : List Char) : List Char :=
  ((l.dropWhile isPySpace).reverse.dropWhile isPySpace).reverse

/-- `DocumentationScraper._clean_text(text)`. -/
def cleanText (l : List Char) : Except String (List Char) :=
  match decodeUnicodeEscape l with
  | .error e => .error e
  | .ok t =>
    .ok (pyStrip ((nfkdNormalize (nonCharSub t)).filter isPrintableChar))

/-! ### The soup

BeautifulSoup parsing is an external library; `_extract_text` uses
exactly two views of the parse tree: the text nodes in document order,
each with the tag names of its ancestor elements (so that
`soup(["script", "style"])` + `decompose()` can erase the subtrees
rooted at those tags), and `get_text(separator=' ', strip=True)`,
which joins the stripped non-empty text nodes with single spaces. A
parsed document is therefore modelled as that list of text nodes.
`html.parser` recovers from malformed markup without raising, so every
markup string yields some such list. -/

/-- One text node of a parsed document. -/
structure TextNode where
  ancestors : List String
  content : String
deriving Repr, DecidableEq

/-- A parsed document (BeautifulSoup object). -/
abbrev Soup : Type := List TextNode

/-- `for tag in soup(["script", "style"]): tag.decompose()` — removes
every text node lying under a `script` or `style` element. -/
def decomposeScriptStyle (soup : Soup) : Soup :=
  soup.filter (fun n => !(n.ancestors.any (fun t => t = "script" || t = "style")))

/-- `' '.join` of character-list pieces. -/
def joinSpace : List (List Char) → List Char
  | [] => []
  | [s] => s
  | s :: rest => s ++ ' ' :: joinSpace rest

/-- `soup.get_text(separator=' ', strip=True)`: strip each text node,
skip the ones that become empty, join the rest with single spaces. -/
def getTextStrip (soup : Soup) : List Char :=
  joinSpace ((soup.map (fun n => pyStrip n.content.toList)).filter
    (fun p => p ≠ []))

/-- `str.split()` with no separator: maximal runs of non-whitespace,
no empty pieces. One fuel unit per consumed character. -/
def splitWsGo : Nat → List Char → List (List Char)
  | _, [] => []
  | 0, _ => []
  | fuel + 1, l =>
    match l.dropWhile isPySpace with
    | [] => []
    | c :: rest =>
      ((c :: rest).takeWhile (fun x => !isPySpace x)) ::
        splitWsGo fuel ((c :: rest).dropWhile (fun x => !isPySpace x))

/-- `str.split()`. -/
def splitWs (l : List Char) : List (List Char) :=
  splitWsGo l.length l

/-- `DocumentationScraper._extract_text(soup)`: decompose script and
style subtrees, take the separator-joined stripped text, clean it, and
collapse whitespace runs with `' '.join(text.split())`. -/
def extractText (soup : Soup) : Except String String :=
  match cleanText (getTextStrip (decomposeScriptStyle soup)) with
  | .error e => .error e
  | .ok t => .ok (String.mk (joinSpace (splitWs t)))

/-- The BeautifulSoup parse of the §8 markup
`<script>evil()</script><p>Hello\u0041 World!</p>` (the six
characters `\u0041` are literal markup text). -/
def soupNoise : Soup :=
  [⟨["script"], "evil()"⟩, ⟨["p"], "Hello\\u0041 World!"⟩]

/-! ### Reference definitions and concrete scenarios for the claims -/

/-- Worker for `chunkLinksSpec`: iterate the pages of the chunk; for
each page whose fetch yields content, run `addLinks` against that
page's own URL. -/
def chunkLinksSpecGo (web : Web) (base : String) :
    List String → List String → Except PyErr (List String)
  | [], acc => .ok acc
  | u :: rest, acc =>
    match lookupWeb web u with
    | none => chunkLinksSpecGo web base rest acc
    | some hrefs =>
      match addLinks base u hrefs acc with
      | .error e => .error e
      | .ok acc' => chunkLinksSpecGo web base rest acc'

/-- The §4.4-step-3 reading of one wave's link collection, written
from the spec's words for comparison with `processChunk`: iterate the
pages of the chunk; for each page whose fetch yields content, resolve
every truthy href against **that page's own URL** and keep the
candidates `_is_valid_url` accepts. -/
def chunkLinksSpec (web : Web) (base : String) (urls : List String) :
    Except PyErr (List String) :=
  chunkLinksSpecGo web base urls []

/-- The network location (host) of a URL string: the netloc field of
`urlparse`, or the parse error. -/
def urlHost (u : String) : Except String (List Char) :=
  (pyUrlparse u).map (fun r => r.netloc)

/-- A character that survives the fragment/query stripping of
`_is_valid_url`. -/
def keepFQ (c : Char) : Bool :=
  c ≠ '#' && c ≠ '?'

/-- The netloc (with its possible `ValueError`) as determined by the
scheme/netloc stage of `urlsplit` — the later fragment, query and
params stages neither raise nor touch it. -/
def rawNetloc (l : List Char) (dflt : List Char) : Except String (List Char) :=
  (netlocSplit (schemeSplit (sanitizeUrl l) dflt).2).map (fun p => p.1)

/-- A URL a crawl from `base` can record: the base itself or a URL
accepted by the validator. -/
abbrev InScope (base u : String) : Prop :=
  u = base ∨ is_valid_url base u = true

/-- Loop invariant of `discoverLoop`: the frontier is duplicate-free,
disjoint from the discovered set, drawn from the crawl's URL universe,
and the visited set is covered by the discovered set. -/
def LoopInv (web : Web) (base : String)
    (visited discovered frontier : List String) : Prop :=
  frontier.Nodup ∧ (∀ u ∈ frontier, u ∉ discovered) ∧
    (∀ u ∈ frontier, u ∈ urlUniverse web base) ∧
    (∀ u ∈ visited, u ∈ discovered)

/-- The loop measure: universe URLs not yet discovered. -/
def loopMeasure (web : Web) (base : String) (discovered : List String) : Nat :=
  ((urlUniverse web base).filter (fun u => u ∉ discovered)).length

/-- §8 scenario for fragment/query canonicalization: the base page
carries two links that differ only by query string and fragment. -/
def webFragQuery : Web :=
  [("http://h", ["/x?y=1", "/x#frag"])]

/-- §8 fetch-failure-isolation scenario: seed `A` links to `B` and
`C`; `B`'s fetch fails (it has no entry); `C` links to `D`. -/
def webIsolation : Web :=
  [("http://h/a", ["/b", "/c"]), ("http://h/c", ["/d"])]

/-- §8 termination scenario: two pages, each linking to itself and to
the other. -/
def webTwoPage : Web :=
  [("http://h/a", ["http://h/a", "http://h/b"]),
   ("http://h/b", ["http://h/b", "http://h/a"])]

/-- Nested-path site: the page `http://h/a/b/` carries the relative
href `c.html`, which resolves differently against the page's own URL
(`http://h/a/b/c.html`) than against the crawl base `http://h/a/`
(`http://h/a/c.html`). -/
def webNested : Web :=
  [("http://h/a/", ["b/"]), ("http://h/a/b/", ["c.html"])]

/-- A page whose text contains a truncated `\u` escape (a literal
backslash, `u`, and two characters). -/
def soupTruncated : Soup :=
  [⟨["p"], "\\u12"⟩]

/-- A page with plain backslash-free text. -/
def soupPlain : Soup :=
  [⟨["p"], "plain text."⟩]

/-! ## Lemmas on the set and sort helpers -/

theorem mem_listInsert {x y : String} {l : List String} :
    x ∈ listInsert y l ↔ x = y ∨ x ∈ l := by
  unfold listInsert
  by_cases h : y ∈ l <;> simp [h]
  · intro hxy
    rw [hxy]; exact h
  · tauto

theorem mem_listUnion {x : String} {l add : List String} :
    x ∈ listUnion l add ↔ x ∈ l ∨ x ∈ add := by
  unfold listUnion
  induction add generalizing l with
  | nil => simp
  | cons a rest ih =>
    simp only [List.foldl_cons, ih, mem_listInsert, List.mem_cons]
    tauto

theorem nodup_listInsert {y : String} {l : List String} (h : l.Nodup) :
    (listInsert y l).Nodup := by
  unfold listInsert
  by_cases hy : y ∈ l <;> simp [hy, List.nodup_append, h]

theorem nodup_listUnion {l add : List String} (h : l.Nodup) :
    (listUnion l add).Nodup := by
  unfold listUnion
  induction add generalizing l with
  | nil => exact h
  | cons a rest ih => exact ih (nodup_listInsert h)

theorem mem_insertSorted {x y : String} {l : List String} :
    x ∈ insertSorted y l ↔ x = y ∨ x ∈ l := by
  induction l with
  | nil => simp [insertSorted]
  | cons a rest ih =>
    unfold insertSorted
    by_cases h : pyStrLe y a = true
    · simp [h]
    · simp [h, ih]
      tauto

theorem mem_pySorted {x : String} {l : List String} :
    x ∈ pySorted l ↔ x ∈ l := by
  unfold pySorted
  induction l with
  | nil => simp
  | cons a rest ih => simp [List.foldr_cons, mem_insertSorted, ih]

/-! ## C1: canonicalization of recorded URLs -/

/-- C1. The claim states that the URLs recorded in the visited set and
returned by `discover_urls` are the canonical fragment/query-stripped
forms, so two hyperlinks that differ only by fragment or query never
yield two distinct entries. It is false: on a site whose seed page
links to `/x?y=1` and `/x#frag`, the result contains the two distinct
entries `http://h/x?y=1` and `http://h/x#frag`, which differ only in
their stripped parts — only the validity check strips, the recorded
URL is the raw `urljoin` output. -/
theorem claim_C1_counterexample :
    discoverResult webFragQuery "http://h" 10 =
      .ok ["http://h", "http://h/x#frag", "http://h/x?y=1"] ∧
    "http://h/x#frag" ∈ ["http://h", "http://h/x#frag", "http://h/x?y=1"] ∧
    "http://h/x?y=1" ∈ ["http://h", "http://h/x#frag", "http://h/x?y=1"] ∧
    ("http://h/x#frag" : String) ≠ "http://h/x?y=1" ∧
    stripFragQuery "http://h/x#frag" = stripFragQuery "http://h/x?y=1" :=
  ⟨rfl, by decide, by decide, by decide, rfl⟩

/-- C1 (amended). Fragment and query are stripped only inside the
validity check: the URL recorded in the visited set and in the result
keeps its fragment and query string, so two hyperlinks that differ
only by fragment or query produce two distinct entries — both raw
forms below pass validation and both appear in the result. -/
theorem claim_C1_raw_urls_recorded :
    is_valid_url "http://h" "http://h/x?y=1" = true ∧
    is_valid_url "http://h" "http://h/x#frag" = true ∧
    discoverResult webFragQuery "http://h" 10 =
      .ok ["http://h", "http://h/x#frag", "http://h/x?y=1"] :=
  ⟨rfl, rfl, rfl⟩

/-! ## C2: configuration validation of `discover_urls` -/

/-- C2. The claim states that a base URL with a non-http(s) scheme or
a non-positive `chunk_size` makes `discover_urls` fail immediately
with a descriptive error, before any fetch, with no partial result.
It is false: `discover_urls("ftp://h")` crawls normally and returns
the list `["ftp://h"]`, and a negative chunk size also returns a
result (`["http://h"]`) instead of failing. -/
theorem claim_C2_counterexample :
    discoverResult [] "ftp://h" 10 = .ok ["ftp://h"] ∧
    discoverResult [] "http://h" (-1) = .ok ["http://h"] :=
  ⟨rfl, rfl⟩

/-- C2 (amended). `discover_urls` performs no configuration
validation: a base URL whose scheme is not http/https is crawled
rather than rejected (its fetch fails and it is returned as the sole
result), a negative `chunk_size` yields just the base URL without
fetching anything, and a `chunk_size` of zero raises the `range()`
step `ValueError` from the chunking expression rather than a
descriptive configuration error. -/
theorem claim_C2_no_validation :
    discoverResult [] "ftp://h" 10 = .ok ["ftp://h"] ∧
    discoverResult [] "http://h" (-1) = .ok ["http://h"] ∧
    discoverResult [] "http://h" 0 =
      .error (.valueError "range() arg 3 must not be zero") :=
  ⟨rfl, rfl, rfl⟩

/-! ## C3: the §8 text-extraction scenario -/

/-- C3. The claim states that on the markup
`<script>evil()</script><p>Hello\u0041 World!</p>` the extractor
returns exactly `"Hello World!"`. It is false: decoding the literal
`\u0041` escape yields the letter `A` directly after `Hello`, so the
output is `"HelloA World!"`. -/
theorem claim_C3_counterexample :
    extractText soupNoise = .ok "HelloA World!" ∧
    ("HelloA World!" : String) ≠ "Hello World!" :=
  ⟨rfl, by decide⟩

/-- C3 (amended). On that markup the extractor output equals exactly
`"HelloA World!"`: the script element's text is absent, the literal
`\u0041` escape is decoded to `A` (adjacent to `Hello`), and
whitespace is collapsed to single spaces with no leading or trailing
whitespace. -/
theorem claim_C3_extract_noise :
    extractText soupNoise = .ok "HelloA World!" :=
  rfl

/-! ## C10: the `use_test_urls` shortcut -/

/-- C10. With `use_test_urls=True`, `discover_urls` returns the
`TEST_URLS` list at once: the scraper state (visited set, result list,
stored base URL) is untouched — in particular the visited set is not
reset — and the site, the `base_url` argument and the `chunk_size`
argument have no effect on the value returned (so nothing is fetched
or validated). -/
theorem claim_C10_test_urls (web : Web) (st : ScraperState) (base : String)
    (cs : Int) (t : List String) :
    discover_urls web st base cs true t = (st, .ok t) :=
  rfl

/-! ## C9: totality of text extraction -/

/-- C9. The claim states text extraction never raises, for every
markup string including arbitrary backslash sequences. It is false: a
page whose text is the four characters `\u12` makes the
`unicode_escape` decoding step of `_clean_text` raise a
`UnicodeDecodeError` (truncated `\uXXXX` escape) that nothing
catches. -/
theorem claim_C9_counterexample :
    extractText soupTruncated = .error "truncated \\uXXXX escape" :=
  rfl

/-- The UTF-8 encoding of a character other than a backslash never
contains the backslash byte. -/
theorem utf8Bytes_no_backslash {c : Char} (h : c ≠ '\\') :
    (92 : Nat) ∉ utf8Bytes c := by
  have hne : c.toNat ≠ 92 := by
    intro h92
    apply h
    apply Char.ext
    apply UInt32.ext
    have hbs : ('\\' : Char).val.toNat = 92 := by decide
    rw [hbs]
    exact h92
  unfold utf8Bytes
  intro hmem
  by_cases h1 : c.toNat < 0x80
  · rw [if_pos h1] at hmem
    simp only [List.mem_singleton] at hmem
    exact hne hmem.symm
  · rw [if_neg h1] at hmem
    by_cases h2 : c.toNat < 0x800
    · rw [if_pos h2] at hmem
      simp only [List.mem_cons, List.not_mem_nil, or_false] at hmem
      rcases hmem with h92 | h92 <;> omega
    · rw [if_neg h2] at hmem
      by_cases h3 : c.toNat < 0x10000
      · rw [if_pos h3] at hmem
        simp only [List.mem_cons, List.not_mem_nil, or_false] at hmem
        rcases hmem with h92 | h92 | h92 <;> omega
      · rw [if_neg h3] at hmem
        simp only [List.mem_cons, List.not_mem_nil, or_false] at hmem
        rcases hmem with h92 | h92 | h92 | h92 <;> omega

/-- The UTF-8 encoding of a backslash-free text contains no backslash
byte. -/
theorem encodeUtf8_no_backslash {l : List Char}
    (h : l.all (fun c => c ≠ '\\') = true) : (92 : Nat) ∉ encodeUtf8 l := by
  unfold encodeUtf8
  intro hmem
  rcases List.mem_flatMap.mp hmem with ⟨c, hc, hbyte⟩
  exact utf8Bytes_no_backslash (by simpa using List.all_eq_true.mp h c hc) hbyte

/-- The `unicode_escape` decoder succeeds on byte strings without the
backslash byte (every error path starts at a backslash). -/
theorem decodeUEGo_ok_of_no_backslash :
    ∀ fuel bs, bs.length ≤ fuel → (92 : Nat) ∉ bs →
      ∃ cs, decodeUEGo fuel bs = .ok cs := by
  intro fuel
  induction fuel with
  | zero =>
    intro bs hlen _
    have : bs = [] := List.eq_nil_of_length_eq_zero (Nat.le_zero.mp hlen)
    exact ⟨[], by rw [this]; rfl⟩
  | succ f ih =>
    intro bs hlen hmem
    match bs with
    | [] => exact ⟨[], rfl⟩
    | b :: rest =>
      have hb : b ≠ 92 := fun hb => hmem (by rw [hb]; exact List.mem_cons_self _ _)
      have hlen' : rest.length ≤ f := by
        have : rest.length + 1 ≤ f + 1 := by simpa using hlen
        omega
      rcases ih rest hlen' (fun hr => hmem (List.mem_cons_of_mem _ hr)) with ⟨cs, hcs⟩
      refine ⟨charOf b :: cs, ?_⟩
      show (if b ≠ 92 then (decodeUEGo f rest).map (fun cs => charOf b :: cs)
            else _) = _
      rw [if_pos hb, hcs]
      rfl

/-- C9 (amended). Text extraction is total on every page whose
(decomposed, joined) text contains no backslash: it returns a string
without raising. Text containing an invalid escape sequence — such as
a truncated `\uXXXX` escape or a trailing backslash — instead makes
the `unicode_escape` decoding step of `_clean_text` raise a decode
error that propagates out of `_extract_text` (see the
counterexample); markup malformedness itself never raises, since the
lenient parser always yields a node list. -/
theorem claim_C9_total_without_backslash (soup : Soup)
    (h : (getTextStrip (decomposeScriptStyle soup)).all
      (fun c => c ≠ '\\') = true) :
    ∃ s, extractText soup = .ok s := by
  unfold extractText cleanText decodeUnicodeEscape
  rcases decodeUEGo_ok_of_no_backslash (encodeUtf8 (getTextStrip (decomposeScriptStyle soup))).length
      (encodeUtf8 (getTextStrip (decomposeScriptStyle soup))) le_rfl
      (encodeUtf8_no_backslash h) with ⟨cs, hcs⟩
  rw [hcs]
  exact ⟨_, rfl⟩

/-- Witness for C9 (amended): a concrete backslash-free page on which
the extractor returns normally. -/
theorem claim_C9_witness :
    (getTextStrip (decomposeScriptStyle soupPlain)).all
      (fun c => c ≠ '\\') = true ∧
    ∃ s, extractText soupPlain = .ok s :=
  ⟨rfl, claim_C9_total_without_backslash soupPlain rfl⟩

/-! ## C5: exact characterization of `_is_valid_url` -/

/-- Exact characterization of `_is_valid_url` (shared helper). -/
theorem is_valid_url_characterization (base url : String) :
    is_valid_url base url = true ↔
      url ≠ "" ∧
      ∃ r b, pyUrlparse (stripFragQuery url) = .ok r ∧
        pyUrlparse base = .ok b ∧
        (r.scheme = "http".toList ∨ r.scheme = "https".toList) ∧
        r.netloc ≠ [] ∧ r.netloc = b.netloc := by
  unfold is_valid_url
  by_cases hu : url = ""
  · simp [hu]
  · rw [if_neg hu]
    cases hp : pyUrlparse (stripFragQuery url) with
    | error e => simp [hu]
    | ok r =>
      cases hb : pyUrlparse base with
      | error e => simp [hu]
      | ok b =>
        simp only [ne_eq, hu, not_false_iff, true_and, Except.ok.injEq,
          Bool.and_eq_true, Bool.or_eq_true, decide_eq_true_eq]
        constructor
        · rintro ⟨⟨⟨hs, hn⟩, hsch⟩, hnet⟩
          exact ⟨r, b, rfl, rfl, hsch, hn, hnet⟩
        · rintro ⟨r', b', hr', hb', hsch, hn, hnet⟩
          rcases hr'
          rcases hb'
          refine ⟨⟨⟨?_, hn⟩, hsch⟩, hnet⟩
          rcases hsch with hs | hs <;> rw [hs] <;> decide

/-- C5. For every candidate and scope, `_is_valid_url` returns `True`
iff, after stripping any fragment and query string, the candidate
parses as an absolute URL (non-empty netloc) whose scheme is `http` or
`https` and whose host equals the host of the parsed scope exactly.
An empty candidate returns `False`, and a candidate (or scope) whose
parsing raises `ValueError` yields `False` rather than a propagated
exception — both covered by the right-hand side requiring a non-empty
candidate and successful parses. -/
theorem claim_C5_is_valid_iff (base url : String) :
    is_valid_url base url = true ↔
      url ≠ "" ∧
      ∃ r b, pyUrlparse (stripFragQuery url) = .ok r ∧
        pyUrlparse base = .ok b ∧
        (r.scheme = "http".toList ∨ r.scheme = "https".toList) ∧
        r.netloc ≠ [] ∧ r.netloc = b.netloc :=
  is_valid_url_characterization base url

/-! ## C4: relative references resolve against the page's own URL -/

/-- Dispatch over fresh, duplicate-free URLs visits them all in
order. -/
theorem dispatch_fresh : ∀ (urls : List String) (v ts : List String),
    urls.Nodup → (∀ u ∈ urls, u ∉ v) →
    urls.foldl
      (fun acc u =>
        if u ∈ acc.1 then acc else (acc.1 ++ [u], acc.2 ++ [u]))
      (v, ts) = (v ++ urls, ts ++ urls) := by
  intro urls
  induction urls with
  | nil => intro v ts _ _; simp
  | cons u rest ih =>
    intro v ts hnd hfresh
    have hu : u ∉ v := hfresh u (List.mem_cons_self _ _)
    simp only [List.foldl_cons, if_neg hu]
    rw [ih (v ++ [u]) (ts ++ [u]) (List.Nodup.of_cons hnd) ?_]
    · simp
    · intro x hx
      simp only [List.mem_append, List.mem_singleton]
      rintro (hxv | rfl)
      · exact hfresh x (List.mem_cons_of_mem _ hx) hxv
      · exact (List.nodup_cons.mp hnd).1 hx

/-- `dispatch` on fresh, duplicate-free URLs. -/
theorem dispatch_eq_of_fresh {visited urls : List String}
    (hnd : urls.Nodup) (hfresh : ∀ u ∈ urls, u ∉ visited) :
    dispatch visited urls = (visited ++ urls, urls) := by
  unfold dispatch
  rw [dispatch_fresh urls visited [] hnd hfresh]
  simp

/-- Zipping a list with its own image pairs every element with its
image. -/
theorem zip_self_map {α β : Type} (f : α → β) :
    ∀ l : List α, l.zip (l.map f) = l.map (fun u => (u, f u)) := by
  intro l
  induction l with
  | nil => rfl
  | cons a rest ih => simp [List.zip_cons_cons, ih]

/-- On correctly paired `(page, content)` rows, the link-collection
loop computes exactly the spec-side per-page fold. -/
theorem collectLinks_map_eq (web : Web) (base : String) :
    ∀ (urls : List String) (acc : List String),
    collectLinks base (urls.map (fun u => (u, lookupWeb web u))) acc =
      chunkLinksSpecGo web base urls acc := by
  intro urls
  induction urls with
  | nil => intro acc; rfl
  | cons u rest ih =>
    intro acc
    cases hlw : lookupWeb web u with
    | none =>
      have h1 : collectLinks base
          ((u :: rest).map (fun u => (u, lookupWeb web u))) acc =
          collectLinks base (rest.map (fun u => (u, lookupWeb web u))) acc := by
        simp [collectLinks, hlw]
      have h2 : chunkLinksSpecGo web base (u :: rest) acc =
          chunkLinksSpecGo web base rest acc := by
        simp [chunkLinksSpecGo, hlw]
      rw [h1, h2]
      exact ih acc
    | some hrefs =>
      cases hadd : addLinks base u hrefs acc with
      | error e =>
        have h1 : collectLinks base
            ((u :: rest).map (fun u => (u, lookupWeb web u))) acc = .error e := by
          simp [collectLinks, hlw, hadd]
        have h2 : chunkLinksSpecGo web base (u :: rest) acc = .error e := by
          simp [chunkLinksSpecGo, hlw, hadd]
        rw [h1, h2]
      | ok acc' =>
        have h1 : collectLinks base
            ((u :: rest).map (fun u => (u, lookupWeb web u))) acc =
            collectLinks base (rest.map (fun u => (u, lookupWeb web u))) acc' := by
          simp [collectLinks, hlw, hadd]
        have h2 : chunkLinksSpecGo web base (u :: rest) acc =
            chunkLinksSpecGo web base rest acc' := by
          simp [chunkLinksSpecGo, hlw, hadd]
        rw [h1, h2]
        exact ih acc'

/-- Alignment characterization of `_process_chunk`: when the chunk is
duplicate-free and none of its URLs was already visited (the situation
in every wave of `discover_urls`), the `zip(urls, responses)` pairs
each page with its own response, so the chunk behaves exactly as the
spec-side per-page fold: every href is resolved against the URL of the
page it was found on. -/
theorem processChunk_spec (web : Web) (base : String)
    (visited urls : List String) (hnd : urls.Nodup)
    (hfresh : ∀ u ∈ urls, u ∉ visited) :
    processChunk web base visited urls =
      (chunkLinksSpec web base urls).map (fun d => (visited ++ urls, d)) := by
  unfold processChunk
  rw [dispatch_eq_of_fresh hnd hfresh]
  simp only
  rw [zip_self_map (lookupWeb web) urls, collectLinks_map_eq web base urls []]
  unfold chunkLinksSpec
  cases chunkLinksSpecGo web base urls [] with
  | error e => rfl
  | ok d => rfl

/-- C4. For every page fetched during a wave (every wave dispatches a
duplicate-free chunk of not-yet-visited URLs), each hyperlink found on
a page is resolved with `urljoin` against **that page's own URL** —
not the crawl base and, thanks to the alignment of `zip(urls,
responses)` under these conditions, not any other page's URL — before
being validated and collected for the next frontier: the chunk's
result coincides with the per-page specification fold
`chunkLinksSpec`. -/
theorem claim_C4_resolves_against_own_url (web : Web) (base : String)
    (visited urls : List String) (hnd : urls.Nodup)
    (hfresh : ∀ u ∈ urls, u ∉ visited) :
    processChunk web base visited urls =
      (chunkLinksSpec web base urls).map (fun d => (visited ++ urls, d)) :=
  processChunk_spec web base visited urls hnd hfresh

/-- Witness for C4 at a nested-path site: the page `http://h/a/b/`
carries href `c.html`, and the chunk discovers
`http://h/a/b/c.html` (resolution against the page's own URL), not
`http://h/a/c.html` (which base-URL resolution would give). -/
theorem claim_C4_witness :
    processChunk webNested "http://h/a/" [] ["http://h/a/b/"] =
      (chunkLinksSpec webNested "http://h/a/" ["http://h/a/b/"]).map
        (fun d => ([] ++ ["http://h/a/b/"], d)) ∧
    chunkLinksSpec webNested "http://h/a/" ["http://h/a/b/"] =
      .ok ["http://h/a/b/c.html"] ∧
    pyUrljoin "http://h/a/" "c.html" = .ok "http://h/a/c.html" :=
  ⟨claim_C4_resolves_against_own_url webNested "http://h/a/" []
      ["http://h/a/b/"] (by simp) (by simp),
    rfl, rfl⟩

/-! ## Properties of the link folds (for C6, C7, C8) -/

/-- A successful `urljoin` of a page of the site with one of its
hrefs lies in the crawl's URL universe. -/
theorem mem_urlUniverse_of_join {web : Web} {base u x h : String}
    {hs : List String} (hlw : lookupWeb web u = some hs) (hh : h ∈ hs)
    (hj : pyUrljoin u h = .ok x) : x ∈ urlUniverse web base := by
  unfold lookupWeb at hlw
  cases hfind : web.find? (fun p => p.1 = u) with
  | none => rw [hfind] at hlw; exact absurd hlw (by simp)
  | some p =>
    rw [hfind] at hlw
    have hp : p.2 = hs := by
      simpa using hlw
    have hpmem : p ∈ web := List.mem_of_find?_eq_some hfind
    have hp1 : p.1 = u := by
      have := List.find?_some hfind
      simpa using this
    unfold urlUniverse
    apply List.mem_cons_of_mem
    apply List.mem_flatMap.mpr
    refine ⟨p, hpmem, ?_⟩
    apply List.mem_filterMap.mpr
    refine ⟨h, by rw [hp]; exact hh, ?_⟩
    rw [hp1, hj]
    rfl

/-- Reduction of a monadic bind on a successful `Except`. -/
theorem except_ok_bind {ε α β : Type} (a : α) (f : α → Except ε β) :
    (Except.ok a >>= f) = f a := rfl

/-- Reduction of a monadic bind on a failed `Except`. -/
theorem except_error_bind {ε α β : Type} (e : ε) (f : α → Except ε β) :
    ((Except.error e : Except ε α) >>= f) = Except.error e := rfl

/-- Error shape and result membership of the per-page href loop: an
error is always a `ValueError` from `urljoin`, and every collected URL
was in the accumulator or is a successful `urljoin` of the page URL
with one of the page's hrefs; duplicate-freeness of the accumulator is
preserved. -/
theorem addLinks_props (base u : String) :
    ∀ (hrefs acc : List String),
      match addLinks base u hrefs acc with
      | .error e => ∃ m, e = .valueError m
      | .ok d => (acc.Nodup → d.Nodup) ∧
          ∀ x ∈ d, x ∈ acc ∨ ∃ h, h ∈ hrefs ∧ pyUrljoin u h = .ok x := by
  intro hrefs
  induction hrefs with
  | nil =>
    intro acc
    exact ⟨id, fun x hx => Or.inl hx⟩
  | cons href rest ih =>
    intro acc
    by_cases h0 : href = ""
    · have hstep : addLinks base u (href :: rest) acc = addLinks base u rest acc := by
        simp [addLinks, h0]
      rw [hstep]
      have := ih acc
      cases hrest : addLinks base u rest acc with
      | error e => rw [hrest] at this; exact this
      | ok d =>
        rw [hrest] at this
        refine ⟨this.1, fun x hx => ?_⟩
        rcases this.2 x hx with hacc | ⟨h, hh, hj⟩
        · exact Or.inl hacc
        · exact Or.inr ⟨h, List.mem_cons_of_mem _ hh, hj⟩
    · cases hj : pyUrljoin u href with
      | error e =>
        have hstep : addLinks base u (href :: rest) acc = .error (.valueError e) := by
          simp [addLinks, h0, hj]
        rw [hstep]
        exact ⟨e, rfl⟩
      | ok full =>
        have hstep : addLinks base u (href :: rest) acc =
            addLinks base u rest
              (if is_valid_url base full then listInsert full acc else acc) := by
          simp [addLinks, h0, hj]
        rw [hstep]
        have := ih (if is_valid_url base full then listInsert full acc else acc)
        cases hrest : addLinks base u rest
            (if is_valid_url base full then listInsert full acc else acc) with
        | error e => rw [hrest] at this; exact this
        | ok d =>
          rw [hrest] at this
          refine ⟨fun hacc => this.1 ?_, fun x hx => ?_⟩
          · by_cases hv : is_valid_url base full = true
            · rw [if_pos hv]; exact nodup_listInsert hacc
            · rw [if_neg hv]; exact hacc
          · rcases this.2 x hx with hacc | ⟨h, hh, hjh⟩
            · by_cases hv : is_valid_url base full = true
              · rw [if_pos hv] at hacc
                rcases mem_listInsert.mp hacc with rfl | hacc'
                · exact Or.inr ⟨href, List.mem_cons_self _ _, hj⟩
                · exact Or.inl hacc'
              · rw [if_neg hv] at hacc
                exact Or.inl hacc
            · exact Or.inr ⟨h, List.mem_cons_of_mem _ hh, hjh⟩

/-- Error shape, result membership and duplicate-freeness of the
spec-side per-page fold. -/
theorem specGo_props (web : Web) (base : String) :
    ∀ (urls acc : List String),
      match chunkLinksSpecGo web base urls acc with
      | .error e => ∃ m, e = .valueError m
      | .ok d => (acc.Nodup → d.Nodup) ∧
          ∀ x ∈ d, x ∈ acc ∨ x ∈ urlUniverse web base := by
  intro urls
  induction urls with
  | nil =>
    intro acc
    exact ⟨id, fun x hx => Or.inl hx⟩
  | cons u rest ih =>
    intro acc
    cases hlw : lookupWeb web u with
    | none =>
      have hstep : chunkLinksSpecGo web base (u :: rest) acc =
          chunkLinksSpecGo web base rest acc := by
        simp [chunkLinksSpecGo, hlw]
      rw [hstep]
      exact ih acc
    | some hrefs =>
      have hin := addLinks_props base u hrefs acc
      cases hinner : addLinks base u hrefs acc with
      | error e =>
        have hstep : chunkLinksSpecGo web base (u :: rest) acc = .error e := by
          simp [chunkLinksSpecGo, hlw, hinner]
        rw [hstep]
        rw [hinner] at hin
        exact hin
      | ok acc' =>
        have hstep : chunkLinksSpecGo web base (u :: rest) acc =
            chunkLinksSpecGo web base rest acc' := by
          simp [chunkLinksSpecGo, hlw, hinner]
        rw [hstep]
        rw [hinner] at hin
        have := ih acc'
        cases hrest : chunkLinksSpecGo web base rest acc' with
        | error e => rw [hrest] at this; exact this
        | ok d =>
          rw [hrest] at this
          refine ⟨fun hacc => this.1 (hin.1 hacc), fun x hx => ?_⟩
          rcases this.2 x hx with hacc' | hU
          · rcases hin.2 x hacc' with hacc | ⟨h, hh, hj⟩
            · exact Or.inl hacc
            · exact Or.inr (mem_urlUniverse_of_join hlw hh hj)
          · exact Or.inr hU

/-! ## Wave-level properties -/

/-- `chunksGo` with zero fuel yields no chunks. -/
theorem chunksGo_zero (cs : Nat) (l : List String) : chunksGo cs 0 l = [] := by
  cases l <;> rfl

/-- Properties of a whole wave over the chunks of a duplicate-free,
unvisited frontier: an error is a `ValueError`; on success the new
visited set only grows by frontier URLs, and the discovered set is
duplicate-free and drawn from the accumulator and the URL universe. -/
theorem waveGo_props (web : Web) (base : String) (cs : Nat) :
    ∀ (f : Nat) (l visited dAcc : List String),
      l.Nodup → (∀ u ∈ l, u ∉ visited) → dAcc.Nodup →
      match processWaveGo web base (chunksGo cs f l) visited dAcc with
      | .error e => ∃ m, e = .valueError m
      | .ok (v, d) => (∀ x ∈ v, x ∈ visited ∨ x ∈ l) ∧ d.Nodup ∧
          (∀ x ∈ d, x ∈ dAcc ∨ x ∈ urlUniverse web base) := by
  intro f
  induction f with
  | zero =>
    intro l visited dAcc _ _ hda
    rw [chunksGo_zero]
    exact ⟨fun x hx => Or.inl hx, hda, fun x hx => Or.inl hx⟩
  | succ f ih =>
    intro l visited dAcc hnd hfresh hda
    cases l with
    | nil =>
      exact ⟨fun x hx => Or.inl hx, hda, fun x hx => Or.inl hx⟩
    | cons a as =>
      have hchunks : chunksGo cs (f + 1) (a :: as) =
          (a :: as).take cs :: chunksGo cs f ((a :: as).drop cs) := rfl
      have hndTake : ((a :: as).take cs).Nodup :=
        (List.take_sublist cs (a :: as)).nodup hnd
      have hfreshTake : ∀ u ∈ (a :: as).take cs, u ∉ visited :=
        fun u hu => hfresh u (List.take_subset _ _ hu)
      have hpc := processChunk_spec web base visited ((a :: as).take cs)
        hndTake hfreshTake
      cases hsp : chunkLinksSpecGo web base ((a :: as).take cs) [] with
      | error e =>
        have hspec := specGo_props web base ((a :: as).take cs) []
        rw [hsp] at hspec
        have hred : processChunk web base visited ((a :: as).take cs) =
            .error e := by
          rw [hpc]
          unfold chunkLinksSpec
          rw [hsp]
          rfl
        have hstep : processWaveGo web base (chunksGo cs (f + 1) (a :: as))
            visited dAcc = .error e := by
          rw [hchunks]
          simp [processWaveGo, hred]
        rw [hstep]
        exact hspec
      | ok dCh =>
        have hspec := specGo_props web base ((a :: as).take cs) []
        rw [hsp] at hspec
        have hred : processChunk web base visited ((a :: as).take cs) =
            .ok (visited ++ (a :: as).take cs, dCh) := by
          rw [hpc]
          unfold chunkLinksSpec
          rw [hsp]
          rfl
        have hstep : processWaveGo web base (chunksGo cs (f + 1) (a :: as))
            visited dAcc =
            processWaveGo web base (chunksGo cs f ((a :: as).drop cs))
              (visited ++ (a :: as).take cs) (listUnion dAcc dCh) := by
          rw [hchunks]
          simp [processWaveGo, hred]
        rw [hstep]
        have hndDrop : ((a :: as).drop cs).Nodup :=
          (List.drop_sublist cs (a :: as)).nodup hnd
        have hdisj : List.Disjoint ((a :: as).take cs) ((a :: as).drop cs) :=
          List.disjoint_take_drop hnd le_rfl
        have hfreshDrop : ∀ u ∈ (a :: as).drop cs,
            u ∉ visited ++ (a :: as).take cs := by
          intro u hu hmem
          rcases List.mem_append.mp hmem with hv | ht
          · exact hfresh u (List.drop_subset _ _ hu) hv
          · exact hdisj ht hu
        have := ih ((a :: as).drop cs) (visited ++ (a :: as).take cs)
          (listUnion dAcc dCh) hndDrop hfreshDrop (nodup_listUnion hda)
        cases hw : processWaveGo web base (chunksGo cs f ((a :: as).drop cs))
            (visited ++ (a :: as).take cs) (listUnion dAcc dCh) with
        | error e => rw [hw] at this; exact this
        | ok vd =>
          rw [hw] at this
          obtain ⟨v, d⟩ := vd
          refine ⟨fun x hx => ?_, this.2.1, fun x hx => ?_⟩
          · rcases this.1 x hx with hv | hd
            · rcases List.mem_append.mp hv with h1 | h2
              · exact Or.inl h1
              · exact Or.inr (List.take_subset _ _ h2)
            · exact Or.inr (List.drop_subset _ _ hd)
          · rcases this.2.2 x hx with hu | hU
            · rcases mem_listUnion.mp hu with h1 | h2
              · exact Or.inl h1
              · rcases hspec.2 x h2 with h3 | h4
                · exact absurd h3 (List.not_mem_nil x)
                · exact Or.inr h4
            · exact Or.inr hU

/-! ## The loop measure -/

/-- Filtering with a stronger predicate yields at most as many
elements. -/
theorem filter_length_mono {p q : String → Bool}
    (h : ∀ u, q u = true → p u = true) :
    ∀ l : List String, (l.filter q).length ≤ (l.filter p).length := by
  intro l
  induction l with
  | nil => exact le_rfl
  | cons c rest ih =>
    by_cases hq : q c = true
    · rw [List.filter_cons_of_pos hq, List.filter_cons_of_pos (h c hq)]
      simpa using ih
    · rw [List.filter_cons_of_neg (by simpa using hq)]
      by_cases hp : p c = true
      · rw [List.filter_cons_of_pos hp]
        exact le_trans ih (by simp)
      · rw [List.filter_cons_of_neg (by simpa using hp)]
        exact ih

/-- Strict decrease of the not-yet-discovered count on any list
containing a newly discovered element. -/
theorem filter_notMem_lt {d d' : List String} (hsub : ∀ u, u ∈ d → u ∈ d')
    {u₀ : String} (h1 : u₀ ∉ d) (h2 : u₀ ∈ d') :
    ∀ l : List String, u₀ ∈ l →
      (l.filter (fun u => decide (u ∉ d'))).length <
        (l.filter (fun u => decide (u ∉ d))).length := by
  have hmono : ∀ u : String,
      (decide (u ∉ d') = true) → (decide (u ∉ d) = true) := by
    intro u hu
    simp only [decide_eq_true_eq] at hu ⊢
    exact fun hmem => hu (hsub u hmem)
  intro l
  induction l with
  | nil => intro hu₀; exact absurd hu₀ (List.not_mem_nil u₀)
  | cons c rest ih =>
    intro hu₀
    by_cases hc : c = u₀
    · subst hc
      rw [List.filter_cons_of_neg (by simpa using h2),
        List.filter_cons_of_pos (by simpa using h1)]
      exact Nat.lt_succ_of_le (filter_length_mono hmono rest)
    · have hu₀rest : u₀ ∈ rest := by
        rcases List.mem_cons.mp hu₀ with h | h
        · exact absurd h.symm hc
        · exact h
      by_cases hcd' : c ∈ d'
      · rw [List.filter_cons_of_neg (by simpa using hcd')]
        by_cases hcd : c ∈ d
        · rw [List.filter_cons_of_neg (by simpa using hcd)]
          exact ih hu₀rest
        · rw [List.filter_cons_of_pos (by simpa using hcd)]
          exact Nat.lt_succ_of_lt (ih hu₀rest)
      · have hcd : c ∉ d := fun hmem => hcd' (hsub c hmem)
        rw [List.filter_cons_of_pos (by simpa using hcd'),
          List.filter_cons_of_pos (by simpa using hcd)]
        exact Nat.succ_lt_succ (ih hu₀rest)

/-- The loop measure drops strictly when the discovered set absorbs a
universe URL it did not contain. -/
theorem loopMeasure_lt {web : Web} {base : String} {d d' : List String}
    (hsub : ∀ u, u ∈ d → u ∈ d') {u₀ : String}
    (hu₀ : u₀ ∈ urlUniverse web base) (h1 : u₀ ∉ d) (h2 : u₀ ∈ d') :
    loopMeasure web base d' < loopMeasure web base d :=
  filter_notMem_lt hsub h1 h2 (urlUniverse web base) hu₀

/-! ## Step equations of `discoverLoop` -/

/-- The terminal step: an empty frontier returns the sorted discovered
set. -/
theorem discoverLoop_nil (web : Web) (base : String) (cs : Int) (f : Nat)
    (visited discovered : List String) :
    discoverLoop web base cs (f + 1) visited discovered [] =
      .ok (visited, pySorted discovered) := by
  simp [discoverLoop]

/-- A `ValueError` from the chunking expression aborts the loop. -/
theorem discoverLoop_chunkErr {web : Web} {base : String} {cs : Int} {f : Nat}
    {visited discovered frontier : List String} {e : PyErr}
    (hfr : frontier ≠ [])
    (hch : pyChunks frontier cs = .error e) :
    discoverLoop web base cs (f + 1) visited discovered frontier = .error e := by
  simp [discoverLoop, hfr, hch]

/-- An exception from a wave aborts the loop. -/
theorem discoverLoop_waveErr {web : Web} {base : String} {cs : Int} {f : Nat}
    {visited discovered frontier : List String} {chunks : List (List String)}
    {e : PyErr} (hfr : frontier ≠ [])
    (hch : pyChunks frontier cs = .ok chunks)
    (hw : processWave web base visited chunks = .error e) :
    discoverLoop web base cs (f + 1) visited discovered frontier = .error e := by
  simp [discoverLoop, hfr, hch, hw]

/-- A successful wave updates the discovered set with the frontier and
filters the newly found URLs into the next frontier. -/
theorem discoverLoop_step {web : Web} {base : String} {cs : Int} {f : Nat}
    {visited discovered frontier : List String} {chunks : List (List String)}
    {v newUrls : List String} (hfr : frontier ≠ [])
    (hch : pyChunks frontier cs = .ok chunks)
    (hw : processWave web base visited chunks = .ok (v, newUrls)) :
    discoverLoop web base cs (f + 1) visited discovered frontier =
      discoverLoop web base cs f v (listUnion discovered frontier)
        (newUrls.filter
          (fun u => u ∉ listUnion discovered frontier && is_valid_url base u)) := by
  simp [discoverLoop, hfr, hch, hw]

/-! ## Loop inductions -/

/-- The crawl loop never exhausts its step budget: under the loop
invariant, with fuel exceeding the number of not-yet-discovered
universe URLs, it either returns a result or propagates a Python
`ValueError`. -/
theorem discoverLoop_total (web : Web) (base : String) (cs : Int) :
    ∀ (fuel : Nat) (visited discovered frontier : List String),
      LoopInv web base visited discovered frontier →
      loopMeasure web base discovered < fuel →
      (∃ r, discoverLoop web base cs fuel visited discovered frontier = .ok r) ∨
      (∃ m, discoverLoop web base cs fuel visited discovered frontier =
        .error (.valueError m)) := by
  intro fuel
  induction fuel with
  | zero =>
    intro visited discovered frontier _ hm
    exact absurd hm (Nat.not_lt_zero _)
  | succ f ih =>
    intro visited discovered frontier hinv hm
    by_cases hfr : frontier = []
    · subst hfr
      exact Or.inl ⟨_, discoverLoop_nil web base cs f visited discovered⟩
    · obtain ⟨hndF, hdisjF, hsubU, hvd⟩ := hinv
      obtain ⟨u₀, hu₀⟩ : ∃ u, u ∈ frontier := by
        cases frontier with
        | nil => exact absurd rfl hfr
        | cons a as => exact ⟨a, List.mem_cons_self _ _⟩
      have hsub : ∀ u, u ∈ discovered → u ∈ listUnion discovered frontier :=
        fun u hu => mem_listUnion.mpr (Or.inl hu)
      have hmlt : loopMeasure web base (listUnion discovered frontier) <
          loopMeasure web base discovered :=
        loopMeasure_lt hsub (hsubU u₀ hu₀) (hdisjF u₀ hu₀)
          (mem_listUnion.mpr (Or.inr hu₀))
      have hm' : loopMeasure web base (listUnion discovered frontier) < f := by
        omega
      have hsubV : ∀ u ∈ visited, u ∈ listUnion discovered frontier :=
        fun u hu => hsub u (hvd u hu)
      by_cases hcs0 : cs = 0
      · refine Or.inr ⟨"range() arg 3 must not be zero",
          discoverLoop_chunkErr hfr ?_⟩
        simp [pyChunks, hcs0]
      · by_cases hneg : cs < 0
        · have hch : pyChunks frontier cs = .ok [] := by
            simp [pyChunks, hcs0, hneg]
          have hw : processWave web base visited [] = .ok (visited, []) := rfl
          rw [discoverLoop_step hfr hch hw]
          have hfil : (([] : List String).filter
              (fun u => u ∉ listUnion discovered frontier &&
                is_valid_url base u)) = [] := rfl
          rw [hfil]
          exact ih visited (listUnion discovered frontier) []
            ⟨List.nodup_nil, by simp, by simp, hsubV⟩ hm'
        · have hch : pyChunks frontier cs =
              .ok (chunksGo cs.toNat frontier.length frontier) := by
            simp [pyChunks, hcs0, hneg]
          have hfreshF : ∀ u ∈ frontier, u ∉ visited :=
            fun u hu hv => hdisjF u hu (hvd u hv)
          have hwave := waveGo_props web base cs.toNat frontier.length frontier
            visited [] hndF hfreshF List.nodup_nil
          cases hw : processWaveGo web base
              (chunksGo cs.toNat frontier.length frontier) visited [] with
          | error e =>
            rw [hw] at hwave
            obtain ⟨m, rfl⟩ := hwave
            exact Or.inr ⟨m, discoverLoop_waveErr hfr hch hw⟩
          | ok vd =>
            obtain ⟨v, newUrls⟩ := vd
            rw [hw] at hwave
            rw [discoverLoop_step hfr hch hw]
            refine ih v (listUnion discovered frontier) _
              ⟨List.Nodup.filter _ hwave.2.1, ?_, ?_, ?_⟩ hm'
            · intro u hu
              have hcond := List.of_mem_filter hu
              simp only [Bool.and_eq_true, decide_eq_true_eq] at hcond
              exact hcond.1
            · intro u hu
              have humem : u ∈ newUrls := List.mem_of_mem_filter hu
              rcases hwave.2.2 u humem with habs | hU
              · exact absurd habs (List.not_mem_nil u)
              · exact hU
            · intro u hu
              rcases hwave.1 u hu with hv | hfrmem
              · exact hsub u (hvd u hv)
              · exact mem_listUnion.mpr (Or.inr hfrmem)

/-- Whatever is in the discovered set or the frontier ends up in the
returned (sorted) result of a successful loop. -/
theorem discoverLoop_mem (web : Web) (base : String) (cs : Int) (b : String) :
    ∀ (fuel : Nat) (visited discovered frontier : List String)
      (r : List String × List String),
      discoverLoop web base cs fuel visited discovered frontier = .ok r →
      (b ∈ discovered ∨ b ∈ frontier) → b ∈ r.2 := by
  intro fuel
  induction fuel with
  | zero =>
    intro visited discovered frontier r h
    exact absurd h (by simp [discoverLoop])
  | succ f ih =>
    intro visited discovered frontier r h hb
    by_cases hfr : frontier = []
    · subst hfr
      rw [discoverLoop_nil] at h
      obtain rfl : (visited, pySorted discovered) = r := by
        simpa using h
      rcases hb with hb | hb
      · exact mem_pySorted.mpr hb
      · exact absurd hb (List.not_mem_nil b)
    · cases hch : pyChunks frontier cs with
      | error e =>
        rw [discoverLoop_chunkErr hfr hch] at h
        exact absurd h (by simp)
      | ok chunks =>
        cases hw : processWave web base visited chunks with
        | error e =>
          rw [discoverLoop_waveErr hfr hch hw] at h
          exact absurd h (by simp)
        | ok vd =>
          obtain ⟨v, newUrls⟩ := vd
          rw [discoverLoop_step hfr hch hw] at h
          exact ih v (listUnion discovered frontier) _ r h
            (Or.inl (mem_listUnion.mpr hb))

/-- Every URL in a successful loop result is the base URL or was
accepted by the validator (the frontier filter re-validates every
URL it admits). -/
theorem discoverLoop_inScope (web : Web) (base : String) (cs : Int) :
    ∀ (fuel : Nat) (visited discovered frontier : List String)
      (r : List String × List String),
      discoverLoop web base cs fuel visited discovered frontier = .ok r →
      (∀ u ∈ discovered, InScope base u) → (∀ u ∈ frontier, InScope base u) →
      ∀ u ∈ r.2, InScope base u := by
  intro fuel
  induction fuel with
  | zero =>
    intro visited discovered frontier r h
    exact absurd h (by simp [discoverLoop])
  | succ f ih =>
    intro visited discovered frontier r h hd hf
    by_cases hfr : frontier = []
    · subst hfr
      rw [discoverLoop_nil] at h
      obtain rfl : (visited, pySorted discovered) = r := by
        simpa using h
      intro u hu
      exact hd u (mem_pySorted.mp hu)
    · cases hch : pyChunks frontier cs with
      | error e =>
        rw [discoverLoop_chunkErr hfr hch] at h
        exact absurd h (by simp)
      | ok chunks =>
        cases hw : processWave web base visited chunks with
        | error e =>
          rw [discoverLoop_waveErr hfr hch hw] at h
          exact absurd h (by simp)
        | ok vd =>
          obtain ⟨v, newUrls⟩ := vd
          rw [discoverLoop_step hfr hch hw] at h
          refine ih v (listUnion discovered frontier) _ r h ?_ ?_
          · intro u hu
            rcases mem_listUnion.mp hu with h1 | h2
            · exact hd u h1
            · exact hf u h2
          · intro u hu
            have hcond := List.of_mem_filter hu
            simp only [Bool.and_eq_true, decide_eq_true_eq] at hcond
            exact Or.inr hcond.2

/-- The result component of a real (non-test) `discover_urls` call is
the loop's result component. -/
theorem discover_urls_run (web : Web) (st : ScraperState) (base : String)
    (cs : Int) (t : List String) :
    (discover_urls web st base cs false t).2 =
      (discoverLoop web base cs ((urlUniverse web base).length + 1)
        [] [] [base]).map (fun r => r.2) := by
  unfold discover_urls
  cases h : discoverLoop web base cs ((urlUniverse web base).length + 1)
      [] [] [base] with
  | ok r =>
    obtain ⟨v, docs⟩ := r
    simp [h]
    rfl
  | error e =>
    simp [h]
    rfl

/-! ## C6: fetch-failure isolation -/

/-- C6. A fetch failure on one URL never aborts `discover_urls`: a
page whose fetch yields no content contributes zero outgoing links
(first conjunct: the collection loop skips a `None` response), every
URL placed in a frontier — in particular the seed, even when its own
fetch fails — remains in the final result (second conjunct), and on
the §8 scenario (seed `A` links to `B` and `C`, fetching `B` fails,
`C` links to `D`) the result is exactly the sorted `{A, B, C, D}`
(third conjunct). -/
theorem claim_C6_fetch_failure_isolated :
    (∀ (base u : String) (rest : List (String × Option (List String)))
      (acc : List String),
      collectLinks base ((u, none) :: rest) acc = collectLinks base rest acc) ∧
    (∀ (web : Web) (st : ScraperState) (base : String) (cs : Int)
      (t l : List String),
      (discover_urls web st base cs false t).2 = .ok l → base ∈ l) ∧
    discoverResult webIsolation "http://h/a" 10 =
      .ok ["http://h/a", "http://h/b", "http://h/c", "http://h/d"] := by
  refine ⟨fun base u rest acc => rfl, ?_, rfl⟩
  intro web st base cs t l h
  rw [discover_urls_run] at h
  cases hr : discoverLoop web base cs ((urlUniverse web base).length + 1)
      [] [] [base] with
  | error e =>
    rw [hr] at h
    exact absurd h (by simp [Except.map])
  | ok r =>
    rw [hr] at h
    have hb := discoverLoop_mem web base cs base
      ((urlUniverse web base).length + 1) [] [] [base] r hr
      (Or.inr (List.mem_cons_self _ _))
    have hrl : r.2 = l := by
      simpa [Except.map] using h
    rwa [hrl] at hb

/-- Witness for C6: the scenario crawl succeeds and the seed is a
member of its result. -/
theorem claim_C6_witness :
    discoverResult webIsolation "http://h/a" 10 =
      .ok ["http://h/a", "http://h/b", "http://h/c", "http://h/d"] ∧
    "http://h/a" ∈ ["http://h/a", "http://h/b", "http://h/c", "http://h/d"] :=
  ⟨claim_C6_fetch_failure_isolated.2.2,
    claim_C6_fetch_failure_isolated.2.1 webIsolation ⟨[], [], ""⟩ "http://h/a"
      10 defaultTestUrls _ claim_C6_fetch_failure_isolated.2.2⟩

/-! ## C7: termination -/

/-- C7. `discover_urls` terminates on every finite static site: the
loop model, given one fuel unit per wave plus one, never exhausts its
budget — every call either returns a discovered-URL list or propagates
a Python `ValueError` (never the fuel-exhaustion marker), because the
discovered set grows by at least one URL of the finite universe each
wave. On the two-page site where each page links to itself and to the
other, the crawl returns exactly the 2 in-scope URLs. -/
theorem claim_C7_terminates :
    (∀ (web : Web) (st : ScraperState) (base : String) (cs : Int)
      (t : List String),
      (∃ l, (discover_urls web st base cs false t).2 = .ok l) ∨
      (∃ m, (discover_urls web st base cs false t).2 =
        .error (.valueError m))) ∧
    discoverResult webTwoPage "http://h/a" 10 =
      .ok ["http://h/a", "http://h/b"] := by
  refine ⟨?_, rfl⟩
  intro web st base cs t
  have hinv : LoopInv web base [] [] [base] := by
    refine ⟨List.nodup_singleton base, by simp, ?_, by simp⟩
    intro u hu
    rcases List.mem_singleton.mp hu with rfl
    exact List.mem_cons_self _ _
  have hm : loopMeasure web base [] < (urlUniverse web base).length + 1 := by
    unfold loopMeasure
    have hall : (urlUniverse web base).filter
        (fun u => decide (u ∉ ([] : List String))) = urlUniverse web base := by
      apply List.filter_eq_self.mpr
      intro a _
      simp
    rw [hall]
    omega
  rcases discoverLoop_total web base cs ((urlUniverse web base).length + 1)
      [] [] [base] hinv hm with ⟨r, hr⟩ | ⟨m, hme⟩
  · left
    refine ⟨r.2, ?_⟩
    rw [discover_urls_run, hr]
    rfl
  · right
    refine ⟨m, ?_⟩
    rw [discover_urls_run, hme]
    rfl

/-! ## Stripping the fragment and query does not change the netloc

`_is_valid_url` strips `#...` and `?...` before parsing, while the
recorded URL keeps them. The network location is nevertheless the
same, because `urlsplit` extracts the netloc from the part of the URL
before any `/`, `?` or `#` anyway. The lemmas below make this precise
for the model parser. -/

/-- Pointwise-equal predicates take the same prefix. -/
theorem takeWhile_ptwise {p q : Char → Bool} (h : ∀ c, p c = q c) :
    ∀ l : List Char, l.takeWhile p = l.takeWhile q := by
  intro l
  induction l with
  | nil => rfl
  | cons c rest ih =>
    by_cases hp : p c = true
    · rw [List.takeWhile_cons_of_pos hp, List.takeWhile_cons_of_pos (h c ▸ hp), ih]
    · rw [List.takeWhile_cons_of_neg hp, List.takeWhile_cons_of_neg (h c ▸ hp)]

/-- The list form of `stripFragQuery`. -/
theorem stripFragQuery_toList (s : String) :
    (stripFragQuery s).toList = s.toList.takeWhile keepFQ := by
  show (s.toList.takeWhile (fun c => c ≠ '#')).takeWhile (fun c => c ≠ '?') = _
  rw [List.takeWhile_takeWhile]
  apply takeWhile_ptwise
  intro c
  by_cases h1 : c = '#' <;> by_cases h2 : c = '?' <;> simp [keepFQ, h1, h2]

/-- `filter` by a predicate that only removes kept characters commutes
with `takeWhile`. -/
theorem takeWhile_filter_comm {p q : Char → Bool}
    (h : ∀ c, q c = false → p c = true) :
    ∀ l : List Char, (l.takeWhile p).filter q = (l.filter q).takeWhile p := by
  intro l
  induction l with
  | nil => rfl
  | cons c rest ih =>
    by_cases hp : p c = true
    · rw [List.takeWhile_cons_of_pos hp]
      by_cases hq : q c = true
      · rw [List.filter_cons_of_pos hq, List.filter_cons_of_pos hq,
          List.takeWhile_cons_of_pos hp, ih]
      · rw [List.filter_cons_of_neg (by simpa using hq),
          List.filter_cons_of_neg (by simpa using hq), ih]
    · rw [List.takeWhile_cons_of_neg hp]
      have hq : q c = true := by
        by_contra hq
        exact hp (h c (by simpa using hq))
      rw [List.filter_cons_of_pos hq, List.takeWhile_cons_of_neg hp]
      rfl

/-- `dropWhile` by a predicate that only drops kept characters
commutes with `takeWhile`. -/
theorem takeWhile_dropWhile_comm {p s : Char → Bool}
    (h : ∀ c, s c = true → p c = true) :
    ∀ m : List Char, (m.takeWhile p).dropWhile s = (m.dropWhile s).takeWhile p := by
  intro m
  induction m with
  | nil => rfl
  | cons c rest ih =>
    by_cases hs : s c = true
    · rw [List.takeWhile_cons_of_pos (h c hs), List.dropWhile_cons_of_pos hs,
        List.dropWhile_cons_of_pos hs, ih]
    · by_cases hp : p c = true
      · rw [List.takeWhile_cons_of_pos hp, List.dropWhile_cons_of_neg hs,
          List.dropWhile_cons_of_neg hs, List.takeWhile_cons_of_pos hp]
      · rw [List.takeWhile_cons_of_neg hp, List.dropWhile_cons_of_neg hs,
          List.takeWhile_cons_of_neg hp]
        rfl

/-- Sanitisation commutes with fragment/query stripping. -/
theorem sanitizeUrl_strip (l : List Char) :
    sanitizeUrl (l.takeWhile keepFQ) = (sanitizeUrl l).takeWhile keepFQ := by
  unfold sanitizeUrl
  have h1 : ∀ c : Char, (!isUnsafeUrlChar c) = false → keepFQ c = true := by
    intro c hc
    have : isUnsafeUrlChar c = true := by simpa using hc
    unfold isUnsafeUrlChar at this
    simp only [Bool.or_eq_true, decide_eq_true_eq] at this
    rcases this with (h | h) | h <;> subst h <;> decide
  have h2 : ∀ c : Char, isC0OrSpace c = true → keepFQ c = true := by
    intro c hc
    unfold isC0OrSpace at hc
    simp only [decide_eq_true_eq] at hc
    unfold keepFQ
    simp only [Bool.and_eq_true, decide_eq_true_eq]
    constructor <;> rintro rfl <;> exact absurd hc (by decide)
  rw [takeWhile_filter_comm h1 l, takeWhile_dropWhile_comm h2]

/-- `takeWhile` over an all-satisfying front extends through an
append. -/
theorem takeWhile_append_front {p : Char → Bool} :
    ∀ {l₁ : List Char} (l₂ : List Char), (∀ c ∈ l₁, p c = true) →
      (l₁ ++ l₂).takeWhile p = l₁ ++ l₂.takeWhile p := by
  intro l₁
  induction l₁ with
  | nil => intro l₂ _; rfl
  | cons c rest ih =>
    intro l₂ hall
    rw [List.cons_append,
      List.takeWhile_cons_of_pos (hall c (List.mem_cons_self _ _)),
      ih l₂ (fun x hx => hall x (List.mem_cons_of_mem _ hx)), List.cons_append]

/-- `dropWhile` over an all-satisfying front skips it entirely. -/
theorem dropWhile_append_front {p : Char → Bool} :
    ∀ {l₁ : List Char} (l₂ : List Char), (∀ c ∈ l₁, p c = true) →
      (l₁ ++ l₂).dropWhile p = l₂.dropWhile p := by
  intro l₁
  induction l₁ with
  | nil => intro l₂ _; rfl
  | cons c rest ih =>
    intro l₂ hall
    rw [List.cons_append,
      List.dropWhile_cons_of_pos (hall c (List.mem_cons_self _ _)),
      ih l₂ (fun x hx => hall x (List.mem_cons_of_mem _ hx))]

/-- `takeWhile` stops inside a front that contains a failing
character. -/
theorem takeWhile_append_stop {p : Char → Bool} :
    ∀ {l₁ : List Char} (l₂ : List Char), (∃ c ∈ l₁, p c = false) →
      (l₁ ++ l₂).takeWhile p = l₁.takeWhile p := by
  intro l₁
  induction l₁ with
  | nil =>
    intro l₂ h
    rcases h with ⟨c, hc, _⟩
    exact absurd hc (List.not_mem_nil c)
  | cons c rest ih =>
    intro l₂ h
    by_cases hp : p c = true
    · rw [List.cons_append, List.takeWhile_cons_of_pos hp,
        List.takeWhile_cons_of_pos hp]
      rcases h with ⟨x, hx, hpx⟩
      rcases List.mem_cons.mp hx with rfl | hx'
      · exact absurd hp (by simp [hpx])
      · rw [ih l₂ ⟨x, hx', hpx⟩]
    · rw [List.cons_append, List.takeWhile_cons_of_neg hp,
        List.takeWhile_cons_of_neg hp]

/-- The head of a non-empty `dropWhile` residue fails the predicate. -/
theorem dropWhile_head_false {p : Char → Bool} {c : Char} {r : List Char} :
    ∀ {l : List Char}, l.dropWhile p = c :: r → p c = false := by
  intro l
  induction l with
  | nil => intro h; exact absurd h (by simp)
  | cons a l' ih =>
    intro h
    by_cases hp : p a = true
    · rw [List.dropWhile_cons_of_pos hp] at h
      exact ih h
    · rw [List.dropWhile_cons_of_neg hp] at h
      obtain ⟨rfl, _⟩ := List.cons.inj h
      simpa using hp

/-- A character that fails `keepFQ` is `#` or `?`. -/
theorem keepFQ_false {c : Char} (h : keepFQ c = false) : c = '#' ∨ c = '?' := by
  unfold keepFQ at h
  rcases Bool.and_eq_false_iff.mp h with h1 | h1
  · left
    by_contra hne
    simp [hne] at h1
  · right
    by_contra hne
    simp [hne] at h1

/-- Scheme recognition commutes with fragment/query stripping: the
detected scheme is unchanged and the remainder is the stripped
remainder. A fragment or query character before the first colon makes
the would-be scheme invalid on the unstripped input and removes the
colon from the stripped one, so both sides fall back to the default. -/
theorem schemeSplit_strip (d : List Char) (l : List Char) :
    schemeSplit (l.takeWhile keepFQ) d =
      ((schemeSplit l d).1, (schemeSplit l d).2.takeWhile keepFQ) := by
  by_cases hall : ∀ c ∈ l.takeWhile (fun c => c ≠ ':'), keepFQ c = true
  · have hdecomp : l.takeWhile keepFQ =
        l.takeWhile (fun c => c ≠ ':') ++
          (l.dropWhile (fun c => c ≠ ':')).takeWhile keepFQ := by
      conv_lhs => rw [← List.takeWhile_append_dropWhile
        (fun c => (c ≠ ':' : Bool)) l]
      exact takeWhile_append_front _ hall
    cases hpost : l.dropWhile (fun c => c ≠ ':') with
    | nil =>
      have hstrip : l.takeWhile keepFQ = l.takeWhile (fun c => c ≠ ':') := by
        rw [hdecomp, hpost]
        simp
      have hdropnil : (l.takeWhile keepFQ).dropWhile (fun c => c ≠ ':') = [] := by
        rw [hstrip]
        refine List.dropWhile_eq_nil_iff.mpr fun x hx => ?_
        simpa using List.mem_takeWhile_imp hx
      simp only [schemeSplit, hdropnil, hpost]
    | cons c0 r =>
      have hc0 : c0 = ':' := by
        have := dropWhile_head_false hpost
        simpa using this
      subst hc0
      have hstrip : l.takeWhile keepFQ =
          l.takeWhile (fun c => c ≠ ':') ++ ':' :: r.takeWhile keepFQ := by
        rw [hdecomp, hpost, List.takeWhile_cons_of_pos (by decide : keepFQ ':' = true)]
      have hpre_ne : ∀ x ∈ l.takeWhile (fun c => c ≠ ':'),
          decide (x ≠ ':') = true := by
        intro x hx
        simpa using List.mem_takeWhile_imp hx
      have h1 : (l.takeWhile keepFQ).takeWhile (fun c => c ≠ ':') =
          l.takeWhile (fun c => c ≠ ':') := by
        rw [hstrip, takeWhile_append_front _ hpre_ne,
          List.takeWhile_cons_of_neg (by simp)]
        simp
      have h2 : (l.takeWhile keepFQ).dropWhile (fun c => c ≠ ':') =
          ':' :: r.takeWhile keepFQ := by
        rw [hstrip, dropWhile_append_front _ hpre_ne,
          List.dropWhile_cons_of_neg (by simp)]
      simp only [schemeSplit, h1, h2, hpost]
      cases hpre : l.takeWhile (fun c => c ≠ ':') with
      | nil => simp [← hstrip, hpre]
      | cons p ps =>
        by_cases hcond : (isAsciiAlpha p && ps.all isSchemeChar) = true
        · simp [hcond]
        · simp [hcond, ← hstrip, hpre]
  · push_neg at hall
    obtain ⟨cbad, hcbadmem, hcbadfail⟩ := hall
    have hcbadfail' : keepFQ cbad = false := by
      simpa using hcbadfail
    have hC : l.takeWhile keepFQ =
        (l.takeWhile (fun c => c ≠ ':')).takeWhile keepFQ := by
      conv_lhs => rw [← List.takeWhile_append_dropWhile
        (fun c => (c ≠ ':' : Bool)) l]
      exact takeWhile_append_stop _ ⟨cbad, hcbadmem, hcbadfail'⟩
    have hnocolon : ∀ x ∈ l.takeWhile keepFQ,
        decide (x ≠ ':') = true := by
      intro x hx
      rw [hC] at hx
      simpa using List.mem_takeWhile_imp
        ((List.takeWhile_sublist keepFQ).subset hx)
    have hdropnil : (l.takeWhile keepFQ).dropWhile (fun c => c ≠ ':') = [] :=
      List.dropWhile_eq_nil_iff.mpr hnocolon
    cases hpost : l.dropWhile (fun c => c ≠ ':') with
    | nil => simp only [schemeSplit, hdropnil, hpost]
    | cons c0 r =>
      cases hpre : l.takeWhile (fun c => c ≠ ':') with
      | nil =>
        rw [hpre] at hcbadmem
        exact absurd hcbadmem (List.not_mem_nil cbad)
      | cons p ps =>
        have hcondF : (isAsciiAlpha p && ps.all isSchemeChar) = false := by
          rw [hpre] at hcbadmem
          rcases List.mem_cons.mp hcbadmem with rfl | hmem
          · apply Bool.and_eq_false_iff.mpr
            left
            rcases keepFQ_false hcbadfail' with rfl | rfl <;> decide
          · apply Bool.and_eq_false_iff.mpr
            right
            apply List.all_eq_false.mpr
            refine ⟨cbad, hmem, ?_⟩
            rcases keepFQ_false hcbadfail' with rfl | rfl <;> decide
        simp only [schemeSplit, hdropnil, hpost, hpre, hcondF]
        simp

/-- If the stripped prefix starts with `//`, so does the original. -/
theorem take2_of_takeWhile {p : Char → Bool} :
    ∀ {l : List Char}, (l.takeWhile p).take 2 = "//".toList →
      l.take 2 = "//".toList := by
  intro l h
  rcases l with _ | ⟨a, _ | ⟨b, l'⟩⟩
  · simp at h
  · by_cases hp : p a = true
    · rw [List.takeWhile_cons_of_pos hp] at h
      simp at h
    · rw [List.takeWhile_cons_of_neg hp] at h
      simp at h
  · by_cases hpa : p a = true
    · rw [List.takeWhile_cons_of_pos hpa] at h
      by_cases hpb : p b = true
      · rw [List.takeWhile_cons_of_pos hpb] at h
        simpa using h
      · rw [List.takeWhile_cons_of_neg hpb] at h
        simp at h
    · rw [List.takeWhile_cons_of_neg hpa] at h
      simp at h

/-- A character that does not end the netloc is kept by the
fragment/query stripping. -/
theorem keepFQ_of_not_netlocEnd {c : Char} (h : isNetlocEnd c = false) :
    keepFQ c = true := by
  unfold isNetlocEnd at h
  simp only [Bool.or_eq_false_iff, decide_eq_false_iff_not] at h
  simp [keepFQ, h.1.2, h.2]

/-- Netloc extraction commutes with fragment/query stripping (up to
the discarded remainder): the netloc stops at the first `/`, `?` or
`#` anyway, and the bracket check depends only on the netloc. -/
theorem netlocSplit_strip (r : List Char) :
    (netlocSplit (r.takeWhile keepFQ)).map (fun p => p.1) =
      (netlocSplit r).map (fun p => p.1) := by
  by_cases h2 : r.take 2 = "//".toList
  · obtain ⟨r₂, rfl⟩ : ∃ r₂, r = '/' :: '/' :: r₂ := by
      rcases r with _ | ⟨a, _ | ⟨b, r₂⟩⟩
      · simp at h2
      · simp at h2
      · simp only [List.take, List.cons.injEq] at h2
        obtain ⟨rfl, rfl, -⟩ := h2
        exact ⟨r₂, rfl⟩
    have hstrip : ('/' :: '/' :: r₂).takeWhile keepFQ =
        '/' :: '/' :: r₂.takeWhile keepFQ := by
      rw [List.takeWhile_cons_of_pos (by decide),
        List.takeWhile_cons_of_pos (by decide)]
    rw [hstrip]
    have hnet : (r₂.takeWhile keepFQ).takeWhile (fun c => !isNetlocEnd c) =
        r₂.takeWhile (fun c => !isNetlocEnd c) := by
      rw [List.takeWhile_takeWhile]
      apply takeWhile_ptwise
      intro c
      by_cases hne : isNetlocEnd c = true
      · simp [hne]
      · have hkeep := keepFQ_of_not_netlocEnd (by simpa using hne)
        simp [hne, hkeep]
    unfold netlocSplit
    simp only [show List.take 2 ('/' :: '/' :: r₂.takeWhile keepFQ) =
        "//".toList from rfl,
      show List.take 2 ('/' :: '/' :: r₂) = "//".toList from rfl,
      show List.drop 2 ('/' :: '/' :: r₂.takeWhile keepFQ) =
        r₂.takeWhile keepFQ from rfl,
      show List.drop 2 ('/' :: '/' :: r₂) = r₂ from rfl,
      eq_self_iff_true, if_true]
    rw [hnet]
    by_cases hbr : (('[' ∈ r₂.takeWhile (fun c => !isNetlocEnd c) &&
        ']' ∉ r₂.takeWhile (fun c => !isNetlocEnd c)) ||
        (']' ∈ r₂.takeWhile (fun c => !isNetlocEnd c) &&
        '[' ∉ r₂.takeWhile (fun c => !isNetlocEnd c))) = true
    · rw [if_pos hbr, if_pos hbr]
    · rw [if_neg hbr, if_neg hbr]
      rfl
  · have h2' : ¬ (r.takeWhile keepFQ).take 2 = "//".toList :=
      fun hh => h2 (take2_of_takeWhile hh)
    unfold netlocSplit
    rw [if_neg h2', if_neg h2]
    rfl

/-- The netloc view of the full parser is the raw scheme/netloc
stage: the later fragment, query and params stages neither raise nor
modify the netloc. -/
theorem pyUrlparseWith_netloc (l dflt : List Char) :
    (pyUrlparseWith l dflt).map (fun r => r.netloc) = rawNetloc l dflt := by
  unfold pyUrlparseWith pyUrlsplit rawNetloc
  rcases hss : schemeSplit (sanitizeUrl l) dflt with ⟨sch, rest⟩
  simp only [hss]
  cases hns : netlocSplit rest with
  | error e =>
    simp only [hns]
    rfl
  | ok p =>
    rcases p with ⟨netloc, rest2⟩
    simp only [hns]
    split
    · rfl
    · rfl

/-- The raw netloc is invariant under fragment/query stripping. -/
theorem rawNetloc_strip (l : List Char) (d : List Char) :
    rawNetloc (l.takeWhile keepFQ) d = rawNetloc l d := by
  unfold rawNetloc
  rw [sanitizeUrl_strip, schemeSplit_strip]
  exact netlocSplit_strip (schemeSplit (sanitizeUrl l) d).2

/-- Stripping the fragment and query string of a URL does not change
the netloc `urlparse` extracts (nor whether parsing raises). -/
theorem pyUrlparse_netloc_strip (s : String) :
    (pyUrlparse (stripFragQuery s)).map (fun r => r.netloc) =
      (pyUrlparse s).map (fun r => r.netloc) := by
  unfold pyUrlparse
  rw [pyUrlparseWith_netloc, pyUrlparseWith_netloc, stripFragQuery_toList]
  exact rawNetloc_strip s.toList []

/-- A URL accepted by the validator has the host of the base URL. -/
theorem urlHost_of_valid {base u : String} (h : is_valid_url base u = true) :
    urlHost u = urlHost base := by
  rcases (is_valid_url_characterization base u).mp h with
    ⟨-, r, b, hr, hb, -, -, hnet⟩
  unfold urlHost
  rw [← pyUrlparse_netloc_strip u, hr, hb]
  simp [Except.map, hnet]

/-! ## C8: scope containment -/

/-- C8. For every base URL, every successful `discover_urls` call and
every `u` in the returned sequence, the host (network location) of
`u` equals the host of the base URL: every non-base element of the
result passed `_is_valid_url`, whose netloc comparison — made on the
fragment/query-stripped URL — determines the netloc of the recorded
URL itself, since stripping cannot change the parsed netloc. -/
theorem claim_C8_scope_containment (web : Web) (st : ScraperState)
    (base : String) (cs : Int) (t l : List String)
    (h : (discover_urls web st base cs false t).2 = .ok l) :
    ∀ u ∈ l, urlHost u = urlHost base := by
  rw [discover_urls_run] at h
  cases hr : discoverLoop web base cs ((urlUniverse web base).length + 1)
      [] [] [base] with
  | error e =>
    rw [hr] at h
    exact absurd h (by simp [Except.map])
  | ok r =>
    rw [hr] at h
    have hrl : r.2 = l := by
      simpa [Except.map] using h
    have hins := discoverLoop_inScope web base cs
      ((urlUniverse web base).length + 1) [] [] [base] r hr
      (fun u hu => absurd hu (List.not_mem_nil u))
      (fun u hu => by
        rcases List.mem_singleton.mp hu with rfl
        exact Or.inl rfl)
    intro u hu
    rcases hins u (by rw [hrl]; exact hu) with rfl | hvalid
    · rfl
    · exact urlHost_of_valid hvalid

/-- Witness for C8: on the two-page site, the crawl succeeds and the
second page's host equals the base host. -/
theorem claim_C8_witness :
    (discover_urls webTwoPage ⟨[], [], ""⟩ "http://h/a" 10 false
      defaultTestUrls).2 = .ok ["http://h/a", "http://h/b"] ∧
    urlHost "http://h/b" = urlHost "http://h/a" :=
  ⟨rfl, claim_C8_scope_containment webTwoPage ⟨[], [], ""⟩ "http://h/a" 10
    defaultTestUrls ["http://h/a", "http://h/b"] rfl "http://h/b"
    (by decide)⟩

end PagePilot
